import Mathlib

/-!
Verification of the compute-mcp arithmetic evaluator core (src/lib.rs).

Numeric model: the Rust code computes with f64; we model numeric values as
exact rationals (ℚ).  Every arithmetic step exercised by the claims below
(small decimal literals, +, -, *, /, negation, comparison with zero) is
exact in f64, so the rational model agrees with the code on all of them.
ℚ holds only finite values; the non-finite f64 values that the program can
produce (overflow of a long literal to IEEE infinity) are modelled
separately by FpVal and f64OfDecimal, which claim C9's correction needs:
the program pretty-prints an overflowed Number as the non-reparseable text
inf, so the round trip fails there.

The pest grammar file (compute.pest) is not among the source files; its
token shapes and production rules are modelled from spec section 4.1, while
every tree-walking function (parse_additive, parse_multiplicative,
parse_unary, parse_primary, eval_expr, evaluate, evaluate_batch,
Expression) is translated directly from src/lib.rs.
-/

/-- AST of arithmetic expressions, from src/lib.rs enum Expr.
Number holds the numeric value: f64 in the source, an exact rational here,
so only the finite f64 values are representable; the non-finite values the
program obtains from overflowing literals are modelled separately by FpVal
for the claim that depends on them (C9). -/
inductive Expr where
  | Number (n : ℚ)
  | Add (l r : Expr)
  | Sub (l r : Expr)
  | Mul (l r : Expr)
  | Div (l r : Expr)
  | Neg (e : Expr)
deriving DecidableEq, Repr

/-- Error taxonomy from src/lib.rs enum ComputeError.  The source attaches
diagnostic payloads to ParseError (a pest error) and InvalidNumber (a
ParseFloatError); the payloads are display-only and are dropped here. -/
inductive ComputeError where
  | ParseError
  | InvalidNumber
  | DivisionByZero
  | InvalidStructure
  | EmptyExpression
deriving DecidableEq, Repr

/-- Strong type for arithmetic expressions, from src/lib.rs struct Expression(String). -/
structure Expression where
  text : String
deriving DecidableEq, Repr

/-- Modelled from the spec: whitespace characters (space, tab, newline,
carriage return) per spec section 4.1; used both by the grammar model and by
the emptiness checks (Rust str::trim on ASCII input behaves identically). -/
def isWsChar (c : Char) : Bool :=
  c == ' ' || c == '\t' || c == '\n' || c == '\r'

/-- Rust expr.trim().is_empty(): true iff every character is whitespace. -/
def trimmedEmpty (s : String) : Bool :=
  s.data.all isWsChar

/-- Expression::new from src/lib.rs: returns None when the trimmed input is
empty, otherwise wraps the raw string verbatim. -/
def Expression.new (expr : String) : Option Expression :=
  if trimmedEmpty expr then none else some ⟨expr⟩

/-- impl From for Expression in src/lib.rs: wraps the string verbatim,
with no emptiness check. -/
def Expression.fromStr (s : String) : Expression := ⟨s⟩

/-- Expression::as_str from src/lib.rs. -/
def Expression.as_str (e : Expression) : String := e.text

/-- Tokens of the expression grammar.  Modelled from the spec: the grammar
file is missing from src, spec section 4.1 gives number, the four binary
operator symbols and parentheses as the token shapes.  A number token
records integer part i, fraction value f and fraction digit count k,
denoting i + f / 10^k. -/
inductive Token where
  | num (i f k : ℕ)
  | plus | minus | star | slash | lparen | rparen
deriving DecidableEq, Repr

/-- Numeric value denoted by a number token. -/
def numValue (i f k : ℕ) : ℚ := (i : ℚ) + (f : ℚ) / 10 ^ k

/-- Lexer state: nothing pending, inside the integer digits of a number,
just past a decimal point (a fraction digit is now mandatory), or inside
the fraction digits. -/
inductive LexState where
  | idle
  | inInt (i : ℕ)
  | dotted (i : ℕ)
  | inFrac (i f k : ℕ)
deriving DecidableEq, Repr

/-- Value of a decimal digit character, none for other characters. -/
def digitVal? (c : Char) : Option ℕ :=
  if c.isDigit then some (c.toNat - 48) else none

/-- Single-character operator and parenthesis tokens. -/
def opToken? (c : Char) : Option Token :=
  if c == '+' then some .plus
  else if c == '-' then some .minus
  else if c == '*' then some .star
  else if c == '/' then some .slash
  else if c == '(' then some .lparen
  else if c == ')' then some .rparen
  else none

/-- Emit the pending number token, if any.  A dangling decimal point
(number := digit+ followed by a dot with no fraction digit, spec section
4.1) is a grammar violation. -/
def flushNum : LexState → Except ComputeError (List Token)
  | .idle => .ok []
  | .inInt i => .ok [.num i 0 0]
  | .dotted _ => .error .ParseError
  | .inFrac i f k => .ok [.num i f k]

/-- Modelled from the spec: one step of tokenization following the number
shape digit+ followed by an optional dot and digit+ (leading digit
mandatory, digit after the dot mandatory, a second dot illegal), with
whitespace insignificant between tokens and every other character a
grammar violation (spec section 4.1). -/
def lexStep (acc : List Token × LexState) (c : Char) :
    Except ComputeError (List Token × LexState) :=
  match digitVal? c with
  | some d =>
    match acc.2 with
    | .idle => .ok (acc.1, .inInt d)
    | .inInt i => .ok (acc.1, .inInt (10 * i + d))
    | .dotted i => .ok (acc.1, .inFrac i d 1)
    | .inFrac i f k => .ok (acc.1, .inFrac i (10 * f + d) (k + 1))
  | none =>
    if c == '.' then
      match acc.2 with
      | .inInt i => .ok (acc.1, .dotted i)
      | _ => .error .ParseError
    else
      match flushNum acc.2 with
      | .error e => .error e
      | .ok flushed =>
        if isWsChar c then .ok (acc.1 ++ flushed, .idle)
        else
          match opToken? c with
          | some t => .ok (acc.1 ++ flushed ++ [t], .idle)
          | none => .error .ParseError

/-- Modelled from the spec: tokenize a character list per the grammar of
spec section 4.1 (the pest grammar file is missing from src). -/
def lex (cs : List Char) : Except ComputeError (List Token) :=
  match cs.foldlM lexStep ([], .idle) with
  | .error e => .error e
  | .ok (ts, st) =>
    match flushNum st with
    | .error e => .error e
    | .ok flushed => .ok (ts ++ flushed)

/-- Conversion of a number token to a value, the model of
pair.as_str().parse::[f64]() in parse_primary (src/lib.rs).  Modelled from
the spec: the converter is Rust standard-library code not in src; per spec
section 7 it cannot fail on a grammar-shaped token (out-of-range magnitudes
round to IEEE infinity instead of failing), so the model is total, and the
InvalidNumber variant it would raise stays unreachable. -/
def parseFloat (i f k : ℕ) : Except ComputeError ℚ :=
  .ok (numValue i f k)

/-- Parser level: the production being parsed, or the running left operand
of one of the two left-associative operator folds (the while-let loops of
parse_additive and parse_multiplicative in src/lib.rs). -/
inductive PLvl where
  | add | mul | unary | prim
  | addLoop (l : Expr)
  | mulLoop (l : Expr)
deriving Repr

/-- Recursive-descent parser over the token list, combining the grammar of
spec section 4.1 with the tree-building of parse_additive,
parse_multiplicative, parse_unary and parse_primary in src/lib.rs:
additive and multiplicative are left folds over their operator chains,
unary is right-recursive, primary is a number or a parenthesized additive.
The fuel argument only bounds recursion depth; none marks exhaustion and
is unreachable from parse_expression, whose fuel exceeds any possible
parse depth for its token list. -/
def parseL : ℕ → PLvl → List Token → Option (Except ComputeError (Expr × List Token))
  | 0, _, _ => none
  | fuel + 1, lvl, ts =>
    match lvl with
    | .add =>
      match parseL fuel .mul ts with
      | some (.ok (l, ts1)) => parseL fuel (.addLoop l) ts1
      | r => r
    | .addLoop l =>
      match ts with
      | .plus :: ts1 =>
        match parseL fuel .mul ts1 with
        | some (.ok (r, ts2)) => parseL fuel (.addLoop (.Add l r)) ts2
        | r => r
      | .minus :: ts1 =>
        match parseL fuel .mul ts1 with
        | some (.ok (r, ts2)) => parseL fuel (.addLoop (.Sub l r)) ts2
        | r => r
      | _ => some (.ok (l, ts))
    | .mul =>
      match parseL fuel .unary ts with
      | some (.ok (l, ts1)) => parseL fuel (.mulLoop l) ts1
      | r => r
    | .mulLoop l =>
      match ts with
      | .star :: ts1 =>
        match parseL fuel .unary ts1 with
        | some (.ok (r, ts2)) => parseL fuel (.mulLoop (.Mul l r)) ts2
        | r => r
      | .slash :: ts1 =>
        match parseL fuel .unary ts1 with
        | some (.ok (r, ts2)) => parseL fuel (.mulLoop (.Div l r)) ts2
        | r => r
      | _ => some (.ok (l, ts))
    | .unary =>
      match ts with
      | .minus :: ts1 =>
        match parseL fuel .unary ts1 with
        | some (.ok (e, ts2)) => some (.ok (.Neg e, ts2))
        | r => r
      | _ => parseL fuel .prim ts
    | .prim =>
      match ts with
      | .num i f k :: ts1 =>
        match parseFloat i f k with
        | .ok q => some (.ok (.Number q, ts1))
        | .error e => some (.error e)
      | .lparen :: ts1 =>
        match parseL fuel .add ts1 with
        | some (.ok (e, ts2)) =>
          match ts2 with
          | .rparen :: ts3 => some (.ok (e, ts3))
          | _ => some (.error .ParseError)
        | r => r
      | _ => some (.error .ParseError)

/-- parse_additive from src/lib.rs (left fold over + and - operands). -/
def parse_additive (fuel : ℕ) (ts : List Token) :
    Option (Except ComputeError (Expr × List Token)) :=
  parseL fuel .add ts

/-- parse_multiplicative from src/lib.rs (left fold over * and / operands). -/
def parse_multiplicative (fuel : ℕ) (ts : List Token) :
    Option (Except ComputeError (Expr × List Token)) :=
  parseL fuel .mul ts

/-- parse_unary from src/lib.rs (right recursion on a leading minus). -/
def parse_unary (fuel : ℕ) (ts : List Token) :
    Option (Except ComputeError (Expr × List Token)) :=
  parseL fuel .unary ts

/-- parse_primary from src/lib.rs (number, or parenthesized additive). -/
def parse_primary (fuel : ℕ) (ts : List Token) :
    Option (Except ComputeError (Expr × List Token)) :=
  parseL fuel .prim ts

/-- Fuel passed to the parser by parse_expression; ample for any parse of
the given token list (each parser step either consumes a token or moves to
a strictly tighter level, of which there are six). -/
def parseFuel (ts : List Token) : ℕ := 8 * ts.length + 8

/-- parse_expression from src/lib.rs: run the grammar over the expression
text, then hand the resulting tree to the walkers.  Modelled from the
spec for the grammar side: the whole input must be consumed (spec section
4.1, unmatched or trailing material rejected, confirmed by the adversarial
tests), so leftover tokens are a ParseError.  Fuel exhaustion (unreachable)
is mapped to the defensive InvalidStructure, mirroring the defensive
ok_or(InvalidStructure) arms of the source walkers. -/
def parse_expression (e : Expression) : Except ComputeError Expr :=
  match lex e.text.data with
  | .error er => .error er
  | .ok ts =>
    match parseL (parseFuel ts) .add ts with
    | none => .error .InvalidStructure
    | some (.error er) => .error er
    | some (.ok (ast, rest)) =>
      if rest = [] then .ok ast else .error .ParseError

/-- eval_expr from src/lib.rs: structural recursion; Add, Sub and Mul
evaluate left child first; Div evaluates the divisor first, reports
DivisionByZero when it is exactly zero and otherwise evaluates the
dividend and divides. -/
def eval_expr : Expr → Except ComputeError ℚ
  | .Number n => .ok n
  | .Add l r =>
    match eval_expr l with
    | .error e => .error e
    | .ok a =>
      match eval_expr r with
      | .error e => .error e
      | .ok b => .ok (a + b)
  | .Sub l r =>
    match eval_expr l with
    | .error e => .error e
    | .ok a =>
      match eval_expr r with
      | .error e => .error e
      | .ok b => .ok (a - b)
  | .Mul l r =>
    match eval_expr l with
    | .error e => .error e
    | .ok a =>
      match eval_expr r with
      | .error e => .error e
      | .ok b => .ok (a * b)
  | .Div l r =>
    match eval_expr r with
    | .error e => .error e
    | .ok d =>
      if d = 0 then .error .DivisionByZero
      else
        match eval_expr l with
        | .error e => .error e
        | .ok a => .ok (a / d)
  | .Neg e =>
    match eval_expr e with
    | .error er => .error er
    | .ok a => .ok (-a)

/-- evaluate_expression from src/lib.rs: parse, then evaluate. -/
def evaluate_expression (e : Expression) : Except ComputeError ℚ :=
  match parse_expression e with
  | .error er => .error er
  | .ok ast => eval_expr ast

/-- evaluate from src/lib.rs: EmptyExpression for trimmed-empty input,
otherwise wrap via the From conversion and run the pipeline. -/
def evaluate (s : String) : Except ComputeError ℚ :=
  if trimmedEmpty s then .error .EmptyExpression
  else evaluate_expression (Expression.fromStr s)

/-- EvaluationResult from src/lib.rs. -/
structure EvaluationResult where
  expression : Expression
  value : Except ComputeError ℚ
deriving Repr

/-- evaluate_batch from src/lib.rs: independent evaluation of each entry. -/
def evaluate_batch (es : List Expression) : List EvaluationResult :=
  es.map fun e => ⟨e, evaluate_expression e⟩

/-- Character of a decimal digit. -/
def digitChar (d : ℕ) : Char := Char.ofNat (48 + d)

/-- Decimal digits of a natural number, most significant first; 0 prints
as the single digit 0 (as Rust formatting does). -/
def natDigitsMsb (n : ℕ) : List ℕ :=
  if n = 0 then [0] else (Nat.digits 10 n).reverse

/-- Characters of a natural number in decimal. -/
def natChars (n : ℕ) : List Char := (natDigitsMsb n).map digitChar

/-- Smallest exponent k up to den with den dividing 10^k, when one exists.
Every denominator of an f64 value has one; the search bound den suffices
because the multiplicity of 2 and of 5 in den is below den. -/
def findK (den : ℕ) : Option ℕ :=
  (List.range (den + 1)).find? fun k => 10 ^ k % den == 0

/-- Fraction digits of m written with exactly width digits (leading zeros). -/
def fracDigits (m width : ℕ) : List ℕ :=
  List.replicate (width - (Nat.digits 10 m).length) 0 ++ (Nat.digits 10 m).reverse

/-- Characters of the magnitude of a finite value q in plain decimal
notation, translated from the Number arm of Expr::to_string
(src/lib.rs lines 24-40): integral values print via the no-decimals format
(the source splits integral printing at 1e15 between two format calls that
both emit a plain digit string, so the branches coincide); non-integral
finite values print via the f64 Display form, which is a plain decimal
string, here the exact expansion of the exactly represented rational value.
This function covers only the finite values ℚ can hold; the source's
Display branch on a non-finite f64 prints inf instead, modelled by
formatNumberFp below.  The none branch of findK is unreachable for values
of parsed expressions. -/
def magChars (q : ℚ) : List Char :=
  if q.den = 1 then natChars q.num.natAbs
  else
    match findK q.den with
    | some k =>
      let N := q.num.natAbs * (10 ^ k / q.den)
      natChars (N / 10 ^ k) ++ '.' :: (fracDigits (N % 10 ^ k) k).map digitChar
    | none => ['0']

/-- Number token denoted by the printed form of q (same branches as
magChars). -/
def numTokenOf (q : ℚ) : Token :=
  if q.den = 1 then .num q.num.natAbs 0 0
  else
    match findK q.den with
    | some k =>
      let N := q.num.natAbs * (10 ^ k / q.den)
      .num (N / 10 ^ k) (N % 10 ^ k) k
    | none => .num 0 0 0

/-- Number formatting of Expr::to_string (src/lib.rs), see magChars. -/
def formatNumber (q : ℚ) : String :=
  ⟨(if q.num < 0 then ['-'] else []) ++ magChars q⟩

/-- An f64 value as the program can hold one: an exactly represented
finite rational, or one of the non-finite IEEE values, which ℚ cannot
carry.  Used to model the overflow path of the number pipeline that the
round-trip claim depends on. -/
inductive FpVal where
  | finite (q : ℚ)
  | pinf
  | ninf
  | nan
deriving DecidableEq, Repr

/-- Modelled from the spec: the std f64 decimal conversion including
overflow (spec sections 4.3 and 7: out-of-range magnitudes become IEEE
infinity, never a conversion failure).  A nonnegative decimal at or above
the IEEE round-to-nearest boundary 2^1024 - 2^970 converts to positive
infinity; smaller values stay finite and are kept exact, as in the rest of
the model. -/
def f64OfDecimal (i f k : ℕ) : FpVal :=
  if (2 : ℚ) ^ 1024 - 2 ^ 970 ≤ numValue i f k then .pinf
  else .finite (numValue i f k)

/-- Number formatting of Expr::to_string (src/lib.rs lines 24-40) over f64
values including the non-finite cases: for infinity, n.fract() is NaN, so
the integral test n.fract() == 0.0 is false and the Display branch runs,
and Rust Display prints inf (resp. -inf, NaN).  Finite values format as in
magChars. -/
def formatNumberFp : FpVal → String
  | .finite q => formatNumber q
  | .pinf => "inf"
  | .ninf => "-inf"
  | .nan => "NaN"

/-- A syntactically valid number literal of 310 digits (1 followed by 309
zeros), whose value 10^309 exceeds the largest finite f64. -/
def bigLit : String := ⟨'1' :: List.replicate 309 '0'⟩

/-- Expr::to_string from src/lib.rs: fully parenthesized binary nodes,
bare leading minus sign for negation. -/
def Expr.toString : Expr → String
  | .Number n => formatNumber n
  | .Add l r => "(" ++ l.toString ++ " + " ++ r.toString ++ ")"
  | .Sub l r => "(" ++ l.toString ++ " - " ++ r.toString ++ ")"
  | .Mul l r => "(" ++ l.toString ++ " * " ++ r.toString ++ ")"
  | .Div l r => "(" ++ l.toString ++ " / " ++ r.toString ++ ")"
  | .Neg e => "-" ++ e.toString

/-- Token sequence denoted by the printed form of an expression. -/
def printTokens : Expr → List Token
  | .Number n => [numTokenOf n]
  | .Add l r => .lparen :: printTokens l ++ .plus :: printTokens r ++ [.rparen]
  | .Sub l r => .lparen :: printTokens l ++ .minus :: printTokens r ++ [.rparen]
  | .Mul l r => .lparen :: printTokens l ++ .star :: printTokens r ++ [.rparen]
  | .Div l r => .lparen :: printTokens l ++ .slash :: printTokens r ++ [.rparen]
  | .Neg e => .minus :: printTokens e

/-- Value denoted by a number token. -/
def tokenValue : Token → ℚ
  | .num i f k => numValue i f k
  | _ => 0

/-- Numbers of ASTs produced by the parser: nonnegative rationals with a
finite decimal expansion. -/
def GoodQ (q : ℚ) : Prop := ∃ n k : ℕ, q = (n : ℚ) / 10 ^ k

/-- All Number leaves of the tree are parser-producible values. -/
def GoodExpr : Expr → Prop
  | .Number n => GoodQ n
  | .Add l r => GoodExpr l ∧ GoodExpr r
  | .Sub l r => GoodExpr l ∧ GoodExpr r
  | .Mul l r => GoodExpr l ∧ GoodExpr r
  | .Div l r => GoodExpr l ∧ GoodExpr r
  | .Neg e => GoodExpr e

/-- Iterated negation: n nested Neg nodes. -/
def iterNeg : ℕ → Expr → Expr
  | 0, e => e
  | n + 1, e => .Neg (iterNeg n e)

/-- Digit-run value: left fold of decimal digits onto an accumulator. -/
def digitsVal (ds : List ℕ) (acc : ℕ) : ℕ := ds.foldl (fun a d => 10 * a + d) acc

/-- A token fragment that parses at unary level to exactly a, consuming
exactly the fragment, for any continuation and any sufficient fuel. -/
def UnaryFrag (m : ℕ) (ts : List Token) (a : Expr) : Prop :=
  ∀ (fuel : ℕ) (rest : List Token), m ≤ fuel →
    parseL fuel .unary (ts ++ rest) = some (.ok (a, rest))

/-- A token fragment that parses at multiplicative level to exactly a,
whenever the continuation does not begin with a multiplicative operator. -/
def MulFrag (m : ℕ) (ts : List Token) (a : Expr) : Prop :=
  ∀ (fuel : ℕ) (rest : List Token), m ≤ fuel →
    rest.head? ≠ some .star → rest.head? ≠ some .slash →
    parseL fuel .mul (ts ++ rest) = some (.ok (a, rest))

/-- A token fragment that parses at additive level to exactly a, whenever
the continuation does not begin with any binary operator. -/
def AddFrag (m : ℕ) (ts : List Token) (a : Expr) : Prop :=
  ∀ (fuel : ℕ) (rest : List Token), m ≤ fuel →
    rest.head? ≠ some .plus → rest.head? ≠ some .minus →
    rest.head? ≠ some .star → rest.head? ≠ some .slash →
    parseL fuel .add (ts ++ rest) = some (.ok (a, rest))

/-- Fuel sufficient to parse the printed form of an expression at unary
level. -/
def needU : Expr → ℕ
  | .Number _ => 2
  | .Neg e => needU e + 1
  | .Add l r => needU l + needU r + 12
  | .Sub l r => needU l + needU r + 12
  | .Mul l r => needU l + needU r + 12
  | .Div l r => needU l + needU r + 12

/-- Goodness carried by a parser level: the accumulated left operand of a
loop level must itself be good. -/
def lvlGood : PLvl → Prop
  | .addLoop l => GoodExpr l
  | .mulLoop l => GoodExpr l
  | _ => True

/-- The input string with n copies of the minus sign put in front. -/
def minusChain (n : ℕ) (s : String) : String :=
  ⟨List.replicate n '-' ++ s.data⟩

lemma flushNum_error : ∀ {st : LexState} {e : ComputeError},
    flushNum st = .error e → e = .ParseError := by
  intro st e h
  cases st with
  | idle => exact absurd h (by simp [flushNum])
  | inInt i => exact absurd h (by simp [flushNum])
  | inFrac i f k => exact absurd h (by simp [flushNum])
  | dotted i => exact (Except.error.inj h).symm

lemma lexStep_error {acc : List Token × LexState} {c : Char} {e : ComputeError}
    (h : lexStep acc c = .error e) : e = .ParseError := by
  unfold lexStep at h
  repeat' split at h
  all_goals try simp_all
  all_goals exact flushNum_error (by assumption)

lemma foldlM_lexStep_error : ∀ (cs : List Char) (acc : List Token × LexState)
    (e : ComputeError), cs.foldlM lexStep acc = .error e → e = .ParseError := by
  intro cs
  induction cs with
  | nil =>
    intro acc e h
    exact Except.noConfusion h
  | cons c cs ih =>
    intro acc e h
    rw [List.foldlM_cons] at h
    cases hs : lexStep acc c with
    | error e1 =>
      rw [hs] at h
      exact (Except.error.inj h) ▸ lexStep_error hs
    | ok acc1 =>
      rw [hs] at h
      exact ih acc1 e h

lemma lex_error {cs : List Char} {e : ComputeError} (h : lex cs = .error e) :
    e = .ParseError := by
  unfold lex at h
  split at h
  · exact (Except.error.inj h) ▸ foldlM_lexStep_error _ _ _ (by assumption)
  · split at h
    · exact (Except.error.inj h) ▸ flushNum_error (by assumption)
    · exact Except.noConfusion h

lemma parseL_error : ∀ (fuel : ℕ) (lvl : PLvl) (ts : List Token) (e : ComputeError),
    parseL fuel lvl ts = some (.error e) → e = .ParseError := by
  intro fuel
  induction fuel with
  | zero =>
    intro lvl ts e h
    exact Option.noConfusion h
  | succ n ih =>
    intro lvl ts e h
    cases lvl with
    | add =>
      simp only [parseL] at h
      repeat' split at h
      all_goals first
        | exact ih _ _ _ h
        | simp_all
    | addLoop l =>
      simp only [parseL] at h
      repeat' split at h
      all_goals first
        | exact ih _ _ _ h
        | simp_all
    | mul =>
      simp only [parseL] at h
      repeat' split at h
      all_goals first
        | exact ih _ _ _ h
        | simp_all
    | mulLoop l =>
      simp only [parseL] at h
      repeat' split at h
      all_goals first
        | exact ih _ _ _ h
        | simp_all
    | unary =>
      simp only [parseL] at h
      repeat' split at h
      all_goals first
        | exact ih _ _ _ h
        | simp_all
    | prim =>
      simp only [parseL] at h
      repeat' split at h
      all_goals first
        | exact ih _ _ _ h
        | simp_all [parseFloat]

lemma eval_expr_error : ∀ (t : Expr) (e : ComputeError),
    eval_expr t = .error e → e = .DivisionByZero := by
  intro t
  induction t with
  | Number n => intro e h; exact Except.noConfusion h
  | Add l r ihl ihr =>
    intro e h
    unfold eval_expr at h
    repeat' split at h
    all_goals first
      | exact ihl _ (by assumption)
      | exact ihr _ (by assumption)
      | simp_all
  | Sub l r ihl ihr =>
    intro e h
    unfold eval_expr at h
    repeat' split at h
    all_goals first
      | exact ihl _ (by assumption)
      | exact ihr _ (by assumption)
      | simp_all
  | Mul l r ihl ihr =>
    intro e h
    unfold eval_expr at h
    repeat' split at h
    all_goals first
      | exact ihl _ (by assumption)
      | exact ihr _ (by assumption)
      | simp_all
  | Div l r ihl ihr =>
    intro e h
    unfold eval_expr at h
    repeat' split at h
    all_goals first
      | exact ihl _ (by assumption)
      | exact ihr _ (by assumption)
      | simp_all
  | Neg t iht =>
    intro e h
    unfold eval_expr at h
    repeat' split at h
    all_goals first
      | exact iht _ (by assumption)
      | simp_all

lemma parse_expression_error {x : Expression} {e : ComputeError}
    (h : parse_expression x = .error e) :
    e = .ParseError ∨ e = .InvalidStructure := by
  unfold parse_expression at h
  split at h
  · exact Or.inl ((Except.error.inj h) ▸ lex_error (by assumption))
  · split at h
    · exact Or.inr (Except.error.inj h).symm
    · exact Or.inl ((Except.error.inj h) ▸ parseL_error _ _ _ _ (by assumption))
    · split at h
      · exact Except.noConfusion h
      · exact Or.inl (Except.error.inj h).symm

lemma evaluate_expression_error {x : Expression} {e : ComputeError}
    (h : evaluate_expression x = .error e) :
    e = .ParseError ∨ e = .InvalidStructure ∨ e = .DivisionByZero := by
  unfold evaluate_expression at h
  split at h
  · rcases parse_expression_error (by assumption) with h1 | h1 <;>
      simp_all [Except.error.inj h]
  · exact Or.inr (Or.inr (eval_expr_error _ _ h))

lemma evaluate_error {s : String} {e : ComputeError} (h : evaluate s = .error e) :
    e = .EmptyExpression ∨ e = .ParseError ∨ e = .InvalidStructure ∨
      e = .DivisionByZero := by
  unfold evaluate at h
  split at h
  · exact Or.inl (Except.error.inj h).symm
  · exact Or.inr (evaluate_expression_error h)

lemma eval_div_eq (l r : Expr) : eval_expr (.Div l r) =
    match eval_expr r with
    | .error e => .error e
    | .ok d =>
      if d = 0 then .error .DivisionByZero
      else
        match eval_expr l with
        | .error e => .error e
        | .ok a => .ok (a / d) := rfl

/-- C1 (amended): evaluating Div(l, r) yields the DivisionByZero error exactly
when the divisor r evaluates to exactly zero, or a nested evaluation itself
yields DivisionByZero (from r, or from l once the divisor is known nonzero);
when the divisor yields zero the quotient is never computed and the division
errors regardless of the dividend; concretely evaluate of 5 / 0 and of
(5 - 5) / (3 - 3) are DivisionByZero. -/
theorem claim_C1_amended (l r : Expr) :
    (eval_expr (.Div l r) = .error .DivisionByZero ↔
      eval_expr r = .ok 0 ∨ eval_expr r = .error .DivisionByZero ∨
        (∃ d : ℚ, d ≠ 0 ∧ eval_expr r = .ok d ∧
          eval_expr l = .error .DivisionByZero)) ∧
    (eval_expr r = .ok 0 → eval_expr (.Div l r) = .error .DivisionByZero) ∧
    evaluate ("5 / 0") = .error .DivisionByZero ∧
    evaluate ("(5 - 5) / (3 - 3)") = .error .DivisionByZero := by
  refine ⟨?_, ?_, ?_, ?_⟩
  · constructor
    · intro h
      rw [eval_div_eq] at h
      split at h
      · rename_i e1 heq
        exact Or.inr (Or.inl (by rw [heq, Except.error.inj h]))
      · rename_i d heq
        split at h
        · rename_i hd
          exact Or.inl (by rw [heq, hd])
        · rename_i hd
          split at h
          · rename_i e2 heq2
            exact Or.inr (Or.inr ⟨d, hd, heq,
              by rw [heq2, Except.error.inj h]⟩)
          · exact Except.noConfusion h
    · intro h
      rw [eval_div_eq]
      rcases h with h | h | ⟨d, hd, hr, hl⟩
      · rw [h]; simp
      · rw [h]
      · rw [hr]; simp [hd, hl]
  · intro h
    rw [eval_div_eq, h]
    simp
  · have hp : parse_expression (Expression.fromStr ("5 / 0")) =
        .ok (.Div (.Number (numValue 5 0 0)) (.Number (numValue 0 0 0))) := rfl
    have ht : trimmedEmpty ("5 / 0") = false := rfl
    simp [evaluate, ht, evaluate_expression, hp, eval_expr, numValue]
  · have hp : parse_expression (Expression.fromStr ("(5 - 5) / (3 - 3)")) =
        .ok (.Div (.Sub (.Number (numValue 5 0 0)) (.Number (numValue 5 0 0)))
          (.Sub (.Number (numValue 3 0 0)) (.Number (numValue 3 0 0)))) := rfl
    have ht : trimmedEmpty ("(5 - 5) / (3 - 3)") = false := rfl
    simp [evaluate, ht, evaluate_expression, hp, eval_expr, numValue]

/-- C1 (counterexample to the claim as stated): the only-if direction fails
when the divisor itself fails with DivisionByZero: Div(1, Div(1, 0)) returns
DivisionByZero although its divisor Div(1, 0) does not evaluate to zero (it
does not evaluate to any value at all). -/
theorem claim_C1_counterexample :
    eval_expr (.Div (.Number 1) (.Div (.Number 1) (.Number 0))) =
      .error .DivisionByZero ∧
    ¬ eval_expr (.Div (.Number 1) (.Number 0)) = .ok 0 := by
  constructor
  · simp [eval_expr]
  · simp [eval_expr]

/-- C3: multiplicative operators bind tighter than additive ones and
parentheses reset precedence to the loosest level: 2 + 3 * 4 parses as
2 + (3 * 4) and evaluates to 14, 2 * 3 + 4 evaluates to 10, and
(2 + 3) * 4 parses with the addition grouped first and evaluates to 20. -/
theorem claim_C3 :
    evaluate ("2 + 3 * 4") = .ok 14 ∧
    evaluate ("2 * 3 + 4") = .ok 10 ∧
    evaluate ("(2 + 3) * 4") = .ok 20 ∧
    parse_expression (Expression.fromStr ("2 + 3 * 4")) =
      .ok (.Add (.Number (numValue 2 0 0))
        (.Mul (.Number (numValue 3 0 0)) (.Number (numValue 4 0 0)))) ∧
    parse_expression (Expression.fromStr ("(2 + 3) * 4")) =
      .ok (.Mul (.Add (.Number (numValue 2 0 0)) (.Number (numValue 3 0 0)))
        (.Number (numValue 4 0 0))) := by
  refine ⟨?_, ?_, ?_, rfl, rfl⟩
  · have hp : parse_expression (Expression.fromStr ("2 + 3 * 4")) =
        .ok (.Add (.Number (numValue 2 0 0))
          (.Mul (.Number (numValue 3 0 0)) (.Number (numValue 4 0 0)))) := rfl
    have ht : trimmedEmpty ("2 + 3 * 4") = false := rfl
    simp [evaluate, ht, evaluate_expression, hp, eval_expr, numValue]
    norm_num
  · have hp : parse_expression (Expression.fromStr ("2 * 3 + 4")) =
        .ok (.Add (.Mul (.Number (numValue 2 0 0)) (.Number (numValue 3 0 0)))
          (.Number (numValue 4 0 0))) := rfl
    have ht : trimmedEmpty ("2 * 3 + 4") = false := rfl
    simp [evaluate, ht, evaluate_expression, hp, eval_expr, numValue]
    norm_num
  · have hp : parse_expression (Expression.fromStr ("(2 + 3) * 4")) =
        .ok (.Mul (.Add (.Number (numValue 2 0 0)) (.Number (numValue 3 0 0)))
          (.Number (numValue 4 0 0))) := rfl
    have ht : trimmedEmpty ("(2 + 3) * 4") = false := rfl
    simp [evaluate, ht, evaluate_expression, hp, eval_expr, numValue]
    norm_num

/-- C4: batch evaluation is length-preserving, order-preserving and
element-wise independent: the result has the length of the input, the entry
at any index pairs that input expression with exactly the outcome of its
single evaluation (so no entry can affect another), and the empty batch
yields the empty output. -/
theorem claim_C4 (es : List Expression) :
    (evaluate_batch es).length = es.length ∧
    (∀ i : ℕ, (evaluate_batch es)[i]? =
      (es[i]?).map fun e => ⟨e, evaluate_expression e⟩) ∧
    evaluate_batch ([] : List Expression) = [] := by
  refine ⟨?_, ?_, rfl⟩
  · simp [evaluate_batch]
  · intro i
    simp [evaluate_batch]

/-- C5 (counterexample to the claim as stated): the From conversion is a
public way of building an Expression and performs no emptiness check, so an
Expression wrapping the empty string is constructible. -/
theorem claim_C5_counterexample :
    trimmedEmpty (Expression.fromStr ("")).text = true := rfl

/-- C5 (amended): the checked constructor Expression::new yields no value
exactly when the trimmed input is empty, and any Expression it does build
wraps text that is non-empty after trimming (stored verbatim); however the
public From conversion wraps any string, including empty ones, verbatim and
unchecked, so not every Expression in existence wraps trimmed-non-empty
text. -/
theorem claim_C5_amended :
    (∀ s : String, Expression.new s = none ↔ trimmedEmpty s = true) ∧
    (∀ (s : String) (e : Expression), Expression.new s = some e →
      trimmedEmpty e.text = false ∧ e.text = s) ∧
    (∀ s : String, (Expression.fromStr s).text = s) := by
  refine ⟨?_, ?_, fun s => rfl⟩
  · intro s
    unfold Expression.new
    split <;> simp_all
  · intro s e h
    unfold Expression.new at h
    split at h
    · exact Option.noConfusion h
    · cases Option.some.inj h
      simp_all

/-- C5 witness for the amended claim at a concrete input. -/
theorem claim_C5_amended_witness :
    trimmedEmpty (Expression.mk ("2 + 3")).text = false ∧
      (Expression.mk ("2 + 3")).text = "2 + 3" :=
  claim_C5_amended.2.1 ("2 + 3") (Expression.mk ("2 + 3")) rfl

/-- C6: dual empty-input policy: the checked constructor returns no value
exactly on trimmed-empty input and otherwise wraps the raw string verbatim,
while the top-level evaluate returns the EmptyExpression error exactly on
trimmed-empty input (and on no other input); in particular the empty string
and a blank string evaluate to EmptyExpression. -/
theorem claim_C6 :
    (∀ s : String, trimmedEmpty s = true → Expression.new s = none) ∧
    (∀ s : String, trimmedEmpty s = false →
      Expression.new s = some (Expression.fromStr s)) ∧
    (∀ s : String, trimmedEmpty s = true →
      evaluate s = .error .EmptyExpression) ∧
    (∀ s : String, trimmedEmpty s = false →
      evaluate s ≠ .error .EmptyExpression) ∧
    evaluate ("") = .error .EmptyExpression ∧
    evaluate ("   ") = .error .EmptyExpression := by
  refine ⟨?_, ?_, ?_, ?_, rfl, rfl⟩
  · intro s h
    simp [Expression.new, h]
  · intro s h
    simp [Expression.new, h, Expression.fromStr]
  · intro s h
    simp [evaluate, h]
  · intro s h hc
    rw [evaluate, h] at hc
    simp only [Bool.false_eq_true, if_false] at hc
    rcases evaluate_expression_error hc with h1 | h1 | h1 <;> exact ComputeError.noConfusion h1

/-- C6 witness at concrete inputs for each hypothesis-bearing conjunct. -/
theorem claim_C6_witness :
    Expression.new ("") = none ∧
    Expression.new ("2") = some (Expression.fromStr ("2")) ∧
    evaluate (" ") = .error .EmptyExpression ∧
    evaluate ("2") ≠ .error .EmptyExpression :=
  ⟨claim_C6.1 ("") rfl, claim_C6.2.1 ("2") rfl, claim_C6.2.2.1 (" ") rfl,
    claim_C6.2.2.2.1 ("2") rfl⟩

/-- C8: grammar-nonconformant inputs are rejected with exactly the
ParseError variant: a number without a leading digit, without a digit after
the decimal point, or with two decimal points, and unmatched parentheses on
either side. -/
theorem claim_C8 :
    evaluate (".5") = .error .ParseError ∧
    evaluate ("5.") = .error .ParseError ∧
    evaluate ("1.2.3") = .error .ParseError ∧
    evaluate ("(1 + 2") = .error .ParseError ∧
    evaluate ("1 + 2)") = .error .ParseError :=
  ⟨rfl, rfl, rfl, rfl, rfl⟩

/-- C10: the errors evaluate can return are confined to EmptyExpression,
ParseError, InvalidStructure and DivisionByZero; in particular the
InvalidNumber variant is unreachable from the public pipeline, because every
grammar-shaped number token converts successfully (out-of-range magnitudes
become IEEE infinity rather than a conversion failure). -/
theorem claim_C10 (s : String) (e : ComputeError) (h : evaluate s = .error e) :
    e = .EmptyExpression ∨ e = .ParseError ∨ e = .InvalidStructure ∨
      e = .DivisionByZero :=
  evaluate_error h

/-- C10 witness at a concrete erroring input. -/
theorem claim_C10_witness :
    ComputeError.EmptyExpression = .EmptyExpression ∨
      ComputeError.EmptyExpression = .ParseError ∨
      ComputeError.EmptyExpression = .InvalidStructure ∨
      ComputeError.EmptyExpression = .DivisionByZero :=
  claim_C10 ("") .EmptyExpression rfl

/-- C1 witness for the hypothesis-bearing conjunct at a concrete division. -/
theorem claim_C1_witness :
    eval_expr (.Div (.Number 1) (.Number 0)) = .error .DivisionByZero :=
  (claim_C1_amended (.Number 1) (.Number 0)).2.1 rfl

lemma add_enter {fuel : ℕ} {ts ts1 : List Token} {l : Expr}
    (h : parseL fuel .mul ts = some (.ok (l, ts1))) :
    parseL (fuel + 1) .add ts = parseL fuel (.addLoop l) ts1 := by
  simp only [parseL]
  rw [h]

lemma addLoop_plus {fuel : ℕ} {ts1 ts2 : List Token} {l r : Expr}
    (h : parseL fuel .mul ts1 = some (.ok (r, ts2))) :
    parseL (fuel + 1) (.addLoop l) (.plus :: ts1) =
      parseL fuel (.addLoop (.Add l r)) ts2 := by
  simp only [parseL]
  rw [h]

lemma addLoop_minus {fuel : ℕ} {ts1 ts2 : List Token} {l r : Expr}
    (h : parseL fuel .mul ts1 = some (.ok (r, ts2))) :
    parseL (fuel + 1) (.addLoop l) (.minus :: ts1) =
      parseL fuel (.addLoop (.Sub l r)) ts2 := by
  simp only [parseL]
  rw [h]

lemma addLoop_stop {fuel : ℕ} {ts : List Token} {l : Expr}
    (h1 : ts.head? ≠ some .plus) (h2 : ts.head? ≠ some .minus) :
    parseL (fuel + 1) (.addLoop l) ts = some (.ok (l, ts)) := by
  cases ts with
  | nil => rfl
  | cons t ts2 =>
    cases t with
    | plus => exact absurd rfl h1
    | minus => exact absurd rfl h2
    | num i f k => rfl
    | star => rfl
    | slash => rfl
    | lparen => rfl
    | rparen => rfl

lemma mul_enter {fuel : ℕ} {ts ts1 : List Token} {l : Expr}
    (h : parseL fuel .unary ts = some (.ok (l, ts1))) :
    parseL (fuel + 1) .mul ts = parseL fuel (.mulLoop l) ts1 := by
  simp only [parseL]
  rw [h]

lemma mulLoop_star {fuel : ℕ} {ts1 ts2 : List Token} {l r : Expr}
    (h : parseL fuel .unary ts1 = some (.ok (r, ts2))) :
    parseL (fuel + 1) (.mulLoop l) (.star :: ts1) =
      parseL fuel (.mulLoop (.Mul l r)) ts2 := by
  simp only [parseL]
  rw [h]

lemma mulLoop_slash {fuel : ℕ} {ts1 ts2 : List Token} {l r : Expr}
    (h : parseL fuel .unary ts1 = some (.ok (r, ts2))) :
    parseL (fuel + 1) (.mulLoop l) (.slash :: ts1) =
      parseL fuel (.mulLoop (.Div l r)) ts2 := by
  simp only [parseL]
  rw [h]

lemma mulLoop_stop {fuel : ℕ} {ts : List Token} {l : Expr}
    (h1 : ts.head? ≠ some .star) (h2 : ts.head? ≠ some .slash) :
    parseL (fuel + 1) (.mulLoop l) ts = some (.ok (l, ts)) := by
  cases ts with
  | nil => rfl
  | cons t ts2 =>
    cases t with
    | star => exact absurd rfl h1
    | slash => exact absurd rfl h2
    | num i f k => rfl
    | plus => rfl
    | minus => rfl
    | lparen => rfl
    | rparen => rfl

lemma unary_minus {fuel : ℕ} {ts ts2 : List Token} {e : Expr}
    (h : parseL fuel .unary ts = some (.ok (e, ts2))) :
    parseL (fuel + 1) .unary (.minus :: ts) = some (.ok (.Neg e, ts2)) := by
  simp only [parseL]
  rw [h]

lemma unary_notminus {fuel : ℕ} {ts : List Token}
    (h : ts.head? ≠ some .minus) :
    parseL (fuel + 1) .unary ts = parseL fuel .prim ts := by
  cases ts with
  | nil => rfl
  | cons t ts2 =>
    cases t with
    | minus => exact absurd rfl h
    | num i f k => rfl
    | plus => rfl
    | star => rfl
    | slash => rfl
    | lparen => rfl
    | rparen => rfl

lemma prim_num {fuel : ℕ} {ts1 : List Token} {i f k : ℕ} :
    parseL (fuel + 1) .prim (.num i f k :: ts1) =
      some (.ok (.Number (numValue i f k), ts1)) := rfl

lemma prim_paren {fuel : ℕ} {ts1 ts3 : List Token} {e : Expr}
    (h : parseL fuel .add ts1 = some (.ok (e, .rparen :: ts3))) :
    parseL (fuel + 1) .prim (.lparen :: ts1) = some (.ok (e, ts3)) := by
  simp only [parseL]
  rw [h]

lemma num_unaryFrag (i f k : ℕ) :
    UnaryFrag 2 [.num i f k] (.Number (numValue i f k)) := by
  intro fuel rest hf
  obtain ⟨f1, rfl⟩ : ∃ f1, fuel = f1 + 2 := ⟨fuel - 2, by omega⟩
  rfl

lemma neg_unaryFrag {m : ℕ} {ts : List Token} {a : Expr}
    (h : UnaryFrag m ts a) : UnaryFrag (m + 1) (.minus :: ts) (.Neg a) := by
  intro fuel rest hf
  obtain ⟨f1, rfl⟩ : ∃ f1, fuel = f1 + 1 := ⟨fuel - 1, by omega⟩
  rw [List.cons_append]
  exact unary_minus (h f1 rest (by omega))

lemma unaryFrag_mulFrag {m : ℕ} {ts : List Token} {a : Expr}
    (h : UnaryFrag m ts a) : MulFrag (m + 2) ts a := by
  intro fuel rest hf h1 h2
  obtain ⟨f1, rfl⟩ : ∃ f1, fuel = f1 + 2 := ⟨fuel - 2, by omega⟩
  rw [mul_enter (h (f1 + 1) rest (by omega))]
  exact mulLoop_stop h1 h2

lemma mulFrag_addFrag {m : ℕ} {ts : List Token} {a : Expr}
    (h : MulFrag m ts a) : AddFrag (m + 2) ts a := by
  intro fuel rest hf h1 h2 h3 h4
  obtain ⟨f1, rfl⟩ : ∃ f1, fuel = f1 + 2 := ⟨fuel - 2, by omega⟩
  rw [add_enter (h (f1 + 1) rest (by omega) h3 h4)]
  exact addLoop_stop h1 h2

lemma unaryFrag_addFrag {m : ℕ} {ts : List Token} {a : Expr}
    (h : UnaryFrag m ts a) : AddFrag (m + 4) ts a :=
  mulFrag_addFrag (unaryFrag_mulFrag h)

lemma iterNeg_unaryFrag {m : ℕ} {ts : List Token} {a : Expr}
    (h : UnaryFrag m ts a) (n : ℕ) :
    UnaryFrag (m + n) (List.replicate n .minus ++ ts) (iterNeg n a) := by
  induction n with
  | zero => simpa using h
  | succ n ih =>
    have h2 := neg_unaryFrag ih
    rw [List.replicate_succ, List.cons_append]
    have : m + (n + 1) = m + n + 1 := by omega
    rw [this]
    exact h2

lemma subChain {mA mB mC : ℕ} {A B C : List Token} {a b c : Expr}
    (hA : MulFrag mA A a) (hB : MulFrag mB B b) (hC : MulFrag mC C c) :
    ∀ fuel : ℕ, mA + mB + mC + 8 ≤ fuel →
      parse_additive fuel (A ++ .minus :: B ++ .minus :: C) =
        some (.ok (.Sub (.Sub a b) c, [])) := by
  intro fuel hf
  obtain ⟨f1, rfl⟩ : ∃ f1, fuel = f1 + 4 := ⟨fuel - 4, by omega⟩
  unfold parse_additive
  have hC2 := hC (f1 + 1) [] (by omega) (by simp) (by simp)
  rw [List.append_nil] at hC2
  have e1 : A ++ .minus :: B ++ .minus :: C =
      A ++ (.minus :: (B ++ (.minus :: C))) := by simp
  rw [e1, add_enter (hA (f1 + 3) _ (by omega) (by simp) (by simp)),
    addLoop_minus (hB (f1 + 2) _ (by omega) (by simp) (by simp)),
    addLoop_minus hC2]
  exact addLoop_stop (by simp) (by simp)

lemma divChain {mA mB mC : ℕ} {A B C : List Token} {a b c : Expr}
    (hA : UnaryFrag mA A a) (hB : UnaryFrag mB B b) (hC : UnaryFrag mC C c) :
    ∀ (fuel : ℕ) (rest : List Token), mA + mB + mC + 8 ≤ fuel →
      rest.head? ≠ some .star → rest.head? ≠ some .slash →
      parse_multiplicative fuel (A ++ .slash :: B ++ .slash :: C ++ rest) =
        some (.ok (.Div (.Div a b) c, rest)) := by
  intro fuel rest hf h1 h2
  obtain ⟨f1, rfl⟩ : ∃ f1, fuel = f1 + 4 := ⟨fuel - 4, by omega⟩
  unfold parse_multiplicative
  have e1 : A ++ .slash :: B ++ .slash :: C ++ rest =
      A ++ (.slash :: (B ++ (.slash :: (C ++ rest)))) := by simp
  rw [e1, mul_enter (hA (f1 + 3) _ (by omega)),
    mulLoop_slash (hB (f1 + 2) _ (by omega)),
    mulLoop_slash (hC (f1 + 1) rest (by omega))]
  exact mulLoop_stop h1 h2

lemma parse_expression_of_addFrag {m : ℕ} {ts : List Token} {a : Expr}
    {x : Expression} (hlex : lex x.text.data = .ok ts) (hfrag : AddFrag m ts a)
    (hm : m ≤ parseFuel ts) :
    parse_expression x = .ok a := by
  unfold parse_expression
  rw [hlex]
  have h2 := hfrag (parseFuel ts) [] hm (by simp) (by simp) (by simp) (by simp)
  rw [List.append_nil] at h2
  show (match parseL (parseFuel ts) PLvl.add ts with
    | none => (Except.error ComputeError.InvalidStructure : Except ComputeError Expr)
    | some (.error er) => .error er
    | some (.ok (ast, rest)) =>
      if rest = [] then .ok ast else .error .ParseError) = .ok a
  rw [h2]
  rfl

lemma foldlM_replicate_minus : ∀ (n : ℕ) (ts0 : List Token),
    (List.replicate n '-').foldlM lexStep (ts0, .idle) =
      .ok (ts0 ++ List.replicate n .minus, .idle) := by
  intro n
  induction n with
  | zero =>
    intro ts0
    simp only [List.replicate, List.append_nil]
    rfl
  | succ n ih =>
    intro ts0
    rw [List.replicate_succ, List.foldlM_cons]
    have hs : lexStep (ts0, .idle) '-' = .ok (ts0 ++ [] ++ [.minus], .idle) := rfl
    rw [hs]
    show (List.replicate n '-').foldlM lexStep (ts0 ++ [] ++ [.minus], .idle) = _
    rw [ih]
    simp [List.replicate_succ]

lemma lex_minusChain_five (n : ℕ) :
    lex (minusChain n ("5")).data =
      .ok (List.replicate n .minus ++ [.num 5 0 0]) := by
  have hdata : (minusChain n ("5")).data = List.replicate n '-' ++ ['5'] := rfl
  unfold lex
  rw [hdata, List.foldlM_append, foldlM_replicate_minus]
  show (match (['5'].foldlM lexStep (List.replicate n Token.minus, .idle)) with
    | .error e => (.error e : Except ComputeError (List Token))
    | .ok (ts, st) =>
      match flushNum st with
      | .error e => .error e
      | .ok flushed => .ok (ts ++ flushed)) = _
  have h5 : ['5'].foldlM lexStep (List.replicate n Token.minus, .idle) =
      .ok (List.replicate n Token.minus, .inInt 5) := rfl
  rw [h5]
  rfl

lemma eval_iterNeg {a : Expr} {v : ℚ} (h : eval_expr a = .ok v) :
    ∀ n : ℕ, eval_expr (iterNeg n a) = .ok ((-1) ^ n * v) := by
  intro n
  induction n with
  | zero => simpa using h
  | succ n ih =>
    have hstep : eval_expr (iterNeg (n + 1) a) =
        match eval_expr (iterNeg n a) with
        | .error e => .error e
        | .ok x => .ok (-x) := rfl
    rw [hstep, ih]
    show Except.ok (-((-1 : ℚ) ^ n * v)) = Except.ok ((-1 : ℚ) ^ (n + 1) * v)
    have : -((-1 : ℚ) ^ n * v) = (-1) ^ (n + 1) * v := by ring
    rw [this]

/-- C2: binary minus and division are left-associative as a hard contract,
testable by AST shape: whenever A, B and C are self-contained operand
fragments, the chain A - B - C parses to Sub(Sub(a, b), c) and the chain
A / B / C parses to Div(Div(a, b), c), never the right-nested tree; and
numerically 10 - 5 - 2 evaluates to 3 and 20 / 4 / 2 evaluates to 2.5. -/
theorem claim_C2 :
    (∀ (mA mB mC : ℕ) (A B C : List Token) (a b c : Expr),
      MulFrag mA A a → MulFrag mB B b → MulFrag mC C c →
      ∀ fuel : ℕ, mA + mB + mC + 8 ≤ fuel →
        parse_additive fuel (A ++ .minus :: B ++ .minus :: C) =
          some (.ok (.Sub (.Sub a b) c, []))) ∧
    (∀ (mA mB mC : ℕ) (A B C : List Token) (a b c : Expr),
      UnaryFrag mA A a → UnaryFrag mB B b → UnaryFrag mC C c →
      ∀ fuel : ℕ, mA + mB + mC + 8 ≤ fuel →
        parse_multiplicative fuel (A ++ .slash :: B ++ .slash :: C ++ []) =
          some (.ok (.Div (.Div a b) c, []))) ∧
    parse_expression (Expression.fromStr ("10 - 5 - 2")) =
      .ok (.Sub (.Sub (.Number (numValue 10 0 0)) (.Number (numValue 5 0 0)))
        (.Number (numValue 2 0 0))) ∧
    parse_expression (Expression.fromStr ("20 / 4 / 2")) =
      .ok (.Div (.Div (.Number (numValue 20 0 0)) (.Number (numValue 4 0 0)))
        (.Number (numValue 2 0 0))) ∧
    evaluate ("10 - 5 - 2") = .ok 3 ∧
    evaluate ("20 / 4 / 2") = .ok (5 / 2) := by
  refine ⟨?_, ?_, rfl, rfl, ?_, ?_⟩
  · intro mA mB mC A B C a b c hA hB hC fuel hf
    exact subChain hA hB hC fuel hf
  · intro mA mB mC A B C a b c hA hB hC fuel hf
    exact divChain hA hB hC fuel [] hf (by simp) (by simp)
  · have hp : parse_expression (Expression.fromStr ("10 - 5 - 2")) =
        .ok (.Sub (.Sub (.Number (numValue 10 0 0)) (.Number (numValue 5 0 0)))
          (.Number (numValue 2 0 0))) := rfl
    have ht : trimmedEmpty ("10 - 5 - 2") = false := rfl
    simp [evaluate, ht, evaluate_expression, hp, eval_expr, numValue]
    norm_num
  · have hp : parse_expression (Expression.fromStr ("20 / 4 / 2")) =
        .ok (.Div (.Div (.Number (numValue 20 0 0)) (.Number (numValue 4 0 0)))
          (.Number (numValue 2 0 0))) := rfl
    have ht : trimmedEmpty ("20 / 4 / 2") = false := rfl
    simp [evaluate, ht, evaluate_expression, hp, eval_expr, numValue]
    norm_num

/-- C2 witness: the associativity contracts instantiated on the literal
chains 10 - 5 - 2 and 20 / 4 / 2 at concrete fuel. -/
theorem claim_C2_witness :
    parse_additive 20
        ([.num 10 0 0] ++ .minus :: [.num 5 0 0] ++ .minus :: [.num 2 0 0]) =
      some (.ok (.Sub (.Sub (.Number (numValue 10 0 0))
        (.Number (numValue 5 0 0))) (.Number (numValue 2 0 0)), [])) ∧
    parse_multiplicative 20
        ([.num 20 0 0] ++ .slash :: [.num 4 0 0] ++ .slash :: [.num 2 0 0] ++ []) =
      some (.ok (.Div (.Div (.Number (numValue 20 0 0))
        (.Number (numValue 4 0 0))) (.Number (numValue 2 0 0)), [])) :=
  ⟨claim_C2.1 4 4 4 _ _ _ _ _ _
      (unaryFrag_mulFrag (num_unaryFrag 10 0 0))
      (unaryFrag_mulFrag (num_unaryFrag 5 0 0))
      (unaryFrag_mulFrag (num_unaryFrag 2 0 0)) 20 (by omega),
    claim_C2.2.1 2 2 2 _ _ _ _ _ _
      (num_unaryFrag 20 0 0) (num_unaryFrag 4 0 0) (num_unaryFrag 2 0 0)
      20 (by omega)⟩

/-- C7: unary minus is right-recursive and stacks: putting n minus tokens in front of
any unary operand fragment parses to n nested Neg nodes; at string level
every input of n minus signs before the literal 5 is accepted and parses to
n nested Neg nodes; evaluating n nested Neg nodes negates the operand value
exactly when n is odd and preserves it when n is even; concretely
evaluate of --5 is 5 and of ---5 is -5. -/
theorem claim_C7 :
    (∀ (n m : ℕ) (U : List Token) (a : Expr), UnaryFrag m U a →
      UnaryFrag (m + n) (List.replicate n .minus ++ U) (iterNeg n a)) ∧
    (∀ n : ℕ, 1 ≤ n → parse_expression (Expression.fromStr (minusChain n ("5"))) =
      .ok (iterNeg n (.Number (numValue 5 0 0)))) ∧
    (∀ (n : ℕ) (a : Expr) (v : ℚ), eval_expr a = .ok v →
      (Odd n → eval_expr (iterNeg n a) = .ok (-v)) ∧
      (Even n → eval_expr (iterNeg n a) = .ok v)) ∧
    evaluate ("--5") = .ok 5 ∧
    evaluate ("---5") = .ok (-5) := by
  refine ⟨?_, ?_, ?_, ?_, ?_⟩
  · intro n m U a h
    exact iterNeg_unaryFrag h n
  · intro n hn
    have hfrag : UnaryFrag (2 + n)
        (List.replicate n .minus ++ [.num 5 0 0])
        (iterNeg n (.Number (numValue 5 0 0))) :=
      iterNeg_unaryFrag (num_unaryFrag 5 0 0) n
    have hlen : (List.replicate n Token.minus ++ [Token.num 5 0 0]).length
        = n + 1 := by simp
    refine parse_expression_of_addFrag (lex_minusChain_five n)
      (unaryFrag_addFrag hfrag) ?_
    rw [parseFuel, hlen]
    omega
  · intro n a v h
    constructor
    · intro hodd
      rw [eval_iterNeg h n, Odd.neg_one_pow hodd, neg_one_mul]
    · intro heven
      rw [eval_iterNeg h n, Even.neg_one_pow heven, one_mul]
  · have hp : parse_expression (Expression.fromStr ("--5")) =
        .ok (.Neg (.Neg (.Number (numValue 5 0 0)))) := rfl
    have ht : trimmedEmpty ("--5") = false := rfl
    simp [evaluate, ht, evaluate_expression, hp, eval_expr, numValue]
  · have hp : parse_expression (Expression.fromStr ("---5")) =
        .ok (.Neg (.Neg (.Neg (.Number (numValue 5 0 0))))) := rfl
    have ht : trimmedEmpty ("---5") = false := rfl
    simp [evaluate, ht, evaluate_expression, hp, eval_expr, numValue]

/-- C7 witness: the stacking contracts instantiated at n = 2 and n = 3 over
the literal operand 5. -/
theorem claim_C7_witness :
    parse_expression (Expression.fromStr (minusChain 2 ("5"))) =
      .ok (iterNeg 2 (.Number (numValue 5 0 0))) ∧
    parse_expression (Expression.fromStr (minusChain 3 ("5"))) =
      .ok (iterNeg 3 (.Number (numValue 5 0 0))) ∧
    eval_expr (iterNeg 2 (.Number 5)) = .ok 5 :=
  ⟨claim_C7.2.1 2 (by omega), claim_C7.2.1 3 (by omega),
    (claim_C7.2.2.1 2 (.Number 5) 5 rfl).2 (by decide)⟩

lemma dvd_ten_pow_self {den K : ℕ} (hden : den ≠ 0) (h : den ∣ 10 ^ K) :
    den ∣ 10 ^ den := by
  have h10K : (10 : ℕ) ^ K ≠ 0 := by positivity
  have h10d : (10 : ℕ) ^ den ≠ 0 := by positivity
  rw [← Nat.factorization_le_iff_dvd hden h10K] at h
  rw [← Nat.factorization_le_iff_dvd hden h10d]
  rw [Nat.factorization_pow] at h ⊢
  rw [Finsupp.le_def] at h ⊢
  intro p
  have hp := h p
  simp only [Finsupp.smul_apply, smul_eq_mul] at hp ⊢
  rcases Nat.eq_zero_or_pos ((Nat.factorization 10) p) with hz | hpos
  · rw [hz] at hp ⊢
    simpa using hp
  · have hlt : den.factorization p < den := Nat.factorization_lt p hden
    calc den.factorization p ≤ den := le_of_lt hlt
    _ ≤ den * (Nat.factorization 10) p := Nat.le_mul_of_pos_right _ hpos

lemma findK_exists {den K : ℕ} (hden : den ≠ 0) (h : den ∣ 10 ^ K) :
    ∃ k, findK den = some k := by
  unfold findK
  cases hf : (List.range (den + 1)).find? (fun k => 10 ^ k % den == 0) with
  | some k => exact ⟨k, rfl⟩
  | none =>
    exfalso
    rw [List.find?_eq_none] at hf
    have hd : den ∣ 10 ^ den := dvd_ten_pow_self hden h
    have hmem : den ∈ List.range (den + 1) := by simp
    have h2 := hf den hmem
    simp [Nat.eq_zero_of_dvd_of_lt, Nat.mod_eq_zero_of_dvd hd] at h2

lemma findK_spec {den k : ℕ} (h : findK den = some k) : den ∣ 10 ^ k := by
  unfold findK at h
  have h2 := List.find?_some h
  simp only [beq_iff_eq] at h2
  exact Nat.dvd_of_mod_eq_zero h2

lemma findK_pos {den k : ℕ} (hden : den ≠ 1) (h : findK den = some k) : 1 ≤ k := by
  by_contra hk
  have hk0 : k = 0 := by omega
  have := findK_spec h
  rw [hk0, pow_zero] at this
  exact hden (Nat.dvd_one.mp this)

lemma digitsVal_reverse (l : List ℕ) : digitsVal l.reverse 0 = Nat.ofDigits 10 l := by
  unfold digitsVal
  rw [List.foldl_reverse]
  induction l with
  | nil => rfl
  | cons d l ih =>
    rw [List.foldr_cons, Nat.ofDigits_cons, ih]
    omega

lemma digitsVal_natDigitsMsb (n : ℕ) : digitsVal (natDigitsMsb n) 0 = n := by
  unfold natDigitsMsb
  split
  · simp [digitsVal]
    omega
  · rw [digitsVal_reverse, Nat.ofDigits_digits]

lemma natDigitsMsb_lt (n : ℕ) : ∀ d ∈ natDigitsMsb n, d < 10 := by
  intro d hd
  unfold natDigitsMsb at hd
  split at hd
  · simp at hd
    omega
  · rw [List.mem_reverse] at hd
    exact Nat.digits_lt_base (by norm_num) hd

lemma natDigitsMsb_ne_nil (n : ℕ) : natDigitsMsb n ≠ [] := by
  unfold natDigitsMsb
  split
  · simp
  · simp [Nat.digits_ne_nil_iff_ne_zero]
    omega

lemma foldl_replicate_zero (j : ℕ) :
    List.foldl (fun a d => 10 * a + d) 0 (List.replicate j 0) = 0 := by
  induction j with
  | zero => rfl
  | succ j ih => rw [List.replicate_succ, List.foldl_cons]; simpa using ih

lemma fracDigits_val (m k : ℕ) : digitsVal (fracDigits m k) 0 = m := by
  unfold fracDigits digitsVal
  rw [List.foldl_append, foldl_replicate_zero]
  have := digitsVal_reverse (Nat.digits 10 m)
  unfold digitsVal at this
  rw [this, Nat.ofDigits_digits]

lemma fracDigits_len {m k : ℕ} (h : m < 10 ^ k) : (fracDigits m k).length = k := by
  unfold fracDigits
  rw [List.length_append, List.length_replicate, List.length_reverse]
  rcases eq_or_ne m 0 with hm | hm
  · simp [hm]
  · rw [Nat.digits_len 10 m (by norm_num) hm]
    have hlog : Nat.log 10 m < k := by
      rw [← Nat.lt_pow_iff_log_lt (by norm_num) hm]
      exact h
    omega

lemma fracDigits_lt (m k : ℕ) : ∀ d ∈ fracDigits m k, d < 10 := by
  intro d hd
  unfold fracDigits at hd
  rw [List.mem_append] at hd
  rcases hd with hd | hd
  · rw [List.eq_of_mem_replicate hd]
    omega
  · rw [List.mem_reverse] at hd
    exact Nat.digits_lt_base (by norm_num) hd

lemma digit_digitChar : ∀ d : ℕ, d < 10 → digitVal? (digitChar d) = some d := by
  decide

lemma lexStep_digit {d : ℕ} (hd : d < 10) (ts0 : List Token) (st : LexState) :
    lexStep (ts0, st) (digitChar d) = .ok (ts0,
      match st with
      | .idle => .inInt d
      | .inInt i => .inInt (10 * i + d)
      | .dotted i => .inFrac i d 1
      | .inFrac i f k => .inFrac i (10 * f + d) (k + 1)) := by
  unfold lexStep
  rw [digit_digitChar d hd]
  cases st <;> rfl

lemma foldlM_digits_inInt : ∀ (ds : List ℕ), (∀ d ∈ ds, d < 10) → ∀ (i : ℕ)
    (ts0 : List Token), (ds.map digitChar).foldlM lexStep (ts0, .inInt i) =
      .ok (ts0, .inInt (digitsVal ds i)) := by
  intro ds
  induction ds with
  | nil => intro _ i ts0; rfl
  | cons d ds ih =>
    intro hd i ts0
    rw [List.map_cons, List.foldlM_cons,
      lexStep_digit (hd d (by simp)) ts0 (.inInt i)]
    show (ds.map digitChar).foldlM lexStep (ts0, .inInt (10 * i + d)) = _
    rw [ih (fun x hx => hd x (by simp [hx])) (10 * i + d) ts0]
    rfl

lemma foldlM_digits_inFrac : ∀ (ds : List ℕ), (∀ d ∈ ds, d < 10) →
    ∀ (i f k : ℕ) (ts0 : List Token),
    (ds.map digitChar).foldlM lexStep (ts0, .inFrac i f k) =
      .ok (ts0, .inFrac i (digitsVal ds f) (k + ds.length)) := by
  intro ds
  induction ds with
  | nil => intro _ i f k ts0; rfl
  | cons d ds ih =>
    intro hd i f k ts0
    rw [List.map_cons, List.foldlM_cons,
      lexStep_digit (hd d (by simp)) ts0 (.inFrac i f k)]
    show (ds.map digitChar).foldlM lexStep (ts0, .inFrac i (10 * f + d) (k + 1)) = _
    rw [ih (fun x hx => hd x (by simp [hx])) i (10 * f + d) (k + 1) ts0]
    have harith : k + 1 + ds.length = k + (d :: ds).length := by
      simp only [List.length_cons]
      omega
    rw [harith]
    rfl

lemma foldlM_natChars (n : ℕ) (ts0 : List Token) :
    (natChars n).foldlM lexStep (ts0, .idle) = .ok (ts0, .inInt n) := by
  unfold natChars
  obtain ⟨d, ds, hds⟩ : ∃ d ds, natDigitsMsb n = d :: ds := by
    cases h : natDigitsMsb n with
    | nil => exact absurd h (natDigitsMsb_ne_nil n)
    | cons d ds => exact ⟨d, ds, rfl⟩
  have hlt := natDigitsMsb_lt n
  rw [hds] at hlt
  rw [hds, List.map_cons, List.foldlM_cons,
    lexStep_digit (hlt d (by simp)) ts0 .idle]
  show (ds.map digitChar).foldlM lexStep (ts0, .inInt d) = _
  rw [foldlM_digits_inInt ds (fun x hx => hlt x (by simp [hx])) d ts0]
  have hv : digitsVal ds d = n := by
    have h2 := digitsVal_natDigitsMsb n
    rw [hds] at h2
    simpa [digitsVal] using h2
  rw [hv]

lemma GoodQ_nonneg {q : ℚ} (hq : GoodQ q) : 0 ≤ q := by
  obtain ⟨n, k, rfl⟩ := hq
  positivity

lemma GoodQ_den_dvd {q : ℚ} (hq : GoodQ q) : ∃ K, q.den ∣ 10 ^ K := by
  obtain ⟨n, k, rfl⟩ := hq
  refine ⟨k, ?_⟩
  have h := Rat.den_dvd (n : ℤ) ((10 : ℤ) ^ k)
  rw [Rat.divInt_eq_div] at h
  push_cast at h
  exact_mod_cast h

lemma natAbs_cast_of_goodQ {q : ℚ} (hq : GoodQ q) :
    (q.num.natAbs : ℚ) = (q.num : ℚ) := by
  have h1 : 0 ≤ q.num := Rat.num_nonneg.mpr (GoodQ_nonneg hq)
  rw [Int.cast_natAbs]
  exact congrArg _ (abs_of_nonneg (by exact_mod_cast h1))

lemma tokenValue_numTokenOf {q : ℚ} (hq : GoodQ q) :
    tokenValue (numTokenOf q) = q := by
  have hnum := natAbs_cast_of_goodQ hq
  unfold numTokenOf
  split
  · rename_i hden
    show numValue q.num.natAbs 0 0 = q
    unfold numValue
    rw [hnum]
    have h2 := Rat.num_div_den q
    rw [hden] at h2
    simp at h2 ⊢
    exact h2
  · rename_i hden
    cases hk : findK q.den with
    | none =>
      obtain ⟨K, hK⟩ := GoodQ_den_dvd hq
      obtain ⟨k, hk2⟩ := findK_exists q.den_nz hK
      rw [hk] at hk2
      exact Option.noConfusion hk2
    | some k =>
      show numValue (q.num.natAbs * (10 ^ k / q.den) / 10 ^ k)
        (q.num.natAbs * (10 ^ k / q.den) % 10 ^ k) k = q
      have hdvd := findK_spec hk
      unfold numValue
      have hpow : ((10 : ℚ) ^ k) ≠ 0 := by positivity
      have hden0 : ((q.den : ℚ)) ≠ 0 := by
        exact_mod_cast q.den_nz
      set N := q.num.natAbs * (10 ^ k / q.den) with hN
      have hNcast : (N : ℚ) = (q.num.natAbs : ℚ) * ((10 : ℚ) ^ k) / (q.den : ℚ) := by
        rw [hN]
        push_cast [Nat.cast_div hdvd hden0]
        ring
      have hsplit : ((N / 10 ^ k : ℕ) : ℚ) + ((N % 10 ^ k : ℕ) : ℚ) / 10 ^ k =
          (N : ℚ) / 10 ^ k := by
        field_simp
        norm_cast
        rw [mul_comm]
        exact Nat.div_add_mod N (10 ^ k)
      rw [hsplit, hNcast, hnum]
      rw [div_div, mul_comm ((q.den : ℚ)) ((10 : ℚ) ^ k), ← div_div,
        mul_div_assoc, div_self hpow, mul_one, Rat.num_div_den]

lemma magChars_lexes {q : ℚ} (hq : GoodQ q) :
    ∃ st : LexState, flushNum st = .ok [numTokenOf q] ∧
      ∀ ts0 : List Token,
        (magChars q).foldlM lexStep (ts0, .idle) = .ok (ts0, st) := by
  unfold magChars numTokenOf
  by_cases hden : q.den = 1
  · rw [if_pos hden, if_pos hden]
    exact ⟨.inInt q.num.natAbs, rfl, fun ts0 => foldlM_natChars _ ts0⟩
  · rw [if_neg hden, if_neg hden]
    cases hk : findK q.den with
    | none =>
      obtain ⟨K, hK⟩ := GoodQ_den_dvd hq
      obtain ⟨k, hk2⟩ := findK_exists q.den_nz hK
      rw [hk] at hk2
      exact Option.noConfusion hk2
    | some k =>
      have hk1 : 1 ≤ k := findK_pos hden hk
      set N := q.num.natAbs * (10 ^ k / q.den) with hN
      have hmod : N % 10 ^ k < 10 ^ k := Nat.mod_lt _ (by positivity)
      have hlen : (fracDigits (N % 10 ^ k) k).length = k := fracDigits_len hmod
      have hfdlt := fracDigits_lt (N % 10 ^ k) k
      obtain ⟨d, ds, hds⟩ : ∃ d ds, fracDigits (N % 10 ^ k) k = d :: ds := by
        cases h : fracDigits (N % 10 ^ k) k with
        | nil => rw [h] at hlen; simp at hlen; omega
        | cons d ds => exact ⟨d, ds, rfl⟩
      rw [hds] at hfdlt hlen
      refine ⟨.inFrac (N / 10 ^ k) (N % 10 ^ k) k, rfl, ?_⟩
      intro ts0
      rw [List.foldlM_append, foldlM_natChars (N / 10 ^ k) ts0]
      show (('.' :: (fracDigits (N % 10 ^ k) k).map digitChar).foldlM
        lexStep (ts0, .inInt (N / 10 ^ k))) = _
      rw [List.foldlM_cons]
      have hdot : lexStep (ts0, .inInt (N / 10 ^ k)) '.' =
          .ok (ts0, .dotted (N / 10 ^ k)) := rfl
      rw [hdot]
      show ((fracDigits (N % 10 ^ k) k).map digitChar).foldlM
        lexStep (ts0, .dotted (N / 10 ^ k)) = _
      rw [hds, List.map_cons, List.foldlM_cons,
        lexStep_digit (hfdlt d (by simp)) ts0 (.dotted (N / 10 ^ k))]
      show (ds.map digitChar).foldlM lexStep
        (ts0, .inFrac (N / 10 ^ k) d 1) = _
      rw [foldlM_digits_inFrac ds (fun x hx => hfdlt x (by simp [hx]))
        (N / 10 ^ k) d 1 ts0]
      have hval : digitsVal ds d = N % 10 ^ k := by
        have h2 := fracDigits_val (N % 10 ^ k) k
        rw [hds] at h2
        simpa [digitsVal] using h2
      have hcount : 1 + ds.length = k := by
        simp at hlen
        omega
      rw [hval, hcount]

lemma lexStep_space {ts0 : List Token} {st : LexState} {fl : List Token}
    (hfl : flushNum st = .ok fl) :
    lexStep (ts0, st) ' ' = .ok (ts0 ++ fl, .idle) := by
  show (match flushNum st with
    | .error e => (.error e : Except ComputeError (List Token × LexState))
    | .ok flushed => .ok (ts0 ++ flushed, .idle)) = _
  rw [hfl]

lemma lexStep_rparen {ts0 : List Token} {st : LexState} {fl : List Token}
    (hfl : flushNum st = .ok fl) :
    lexStep (ts0, st) ')' = .ok (ts0 ++ fl ++ [.rparen], .idle) := by
  show (match flushNum st with
    | .error e => (.error e : Except ComputeError (List Token × LexState))
    | .ok flushed => .ok (ts0 ++ flushed ++ [Token.rparen], LexState.idle)) = _
  rw [hfl]

lemma foldlM_rparen_end {B : List Token} {st : LexState} {fl : List Token}
    (hfl : flushNum st = .ok fl) :
    ([')'] : List Char).foldlM lexStep (B, st) =
      .ok (B ++ fl ++ [.rparen], .idle) := by
  rw [List.foldlM_cons, lexStep_rparen hfl]
  rfl

lemma print_lexes_binary {lchars rchars : List Char} {outl fll outr flr : List Token}
    {stl str : LexState}
    (hfoldl : ∀ ts0, lchars.foldlM lexStep (ts0, .idle) = .ok (ts0 ++ outl, stl))
    (hfll : flushNum stl = .ok fll)
    (hfoldr : ∀ ts0, rchars.foldlM lexStep (ts0, .idle) = .ok (ts0 ++ outr, str))
    (hflr : flushNum str = .ok flr)
    (c : Char) (tok : Token)
    (hc : ∀ A : List Token, lexStep (A, .idle) c = .ok (A ++ [] ++ [tok], .idle)) :
    ∀ ts0, ('(' :: (lchars ++ (' ' :: c :: ' ' :: (rchars ++ [')'])))).foldlM
        lexStep (ts0, .idle) =
      .ok (ts0 ++ ([Token.lparen] ++ outl ++ fll ++ [tok] ++ outr ++ flr ++ [Token.rparen]),
        .idle) := by
  intro ts0
  have h1 : ('(' :: (lchars ++ (' ' :: c :: ' ' :: (rchars ++ [')'])))).foldlM
      lexStep (ts0, .idle) =
      (lchars ++ (' ' :: c :: ' ' :: (rchars ++ [')']))).foldlM lexStep
        (ts0 ++ [] ++ [Token.lparen], .idle) := rfl
  rw [h1, List.foldlM_append, hfoldl (ts0 ++ [] ++ [Token.lparen])]
  show (' ' :: c :: ' ' :: (rchars ++ [')'])).foldlM lexStep
    (ts0 ++ [] ++ [Token.lparen] ++ outl, stl) = _
  rw [List.foldlM_cons, lexStep_space hfll]
  show (c :: ' ' :: (rchars ++ [')'])).foldlM lexStep
    (ts0 ++ [] ++ [Token.lparen] ++ outl ++ fll, .idle) = _
  rw [List.foldlM_cons, hc (ts0 ++ [] ++ [Token.lparen] ++ outl ++ fll)]
  show (' ' :: (rchars ++ [')'])).foldlM lexStep
    (ts0 ++ [] ++ [Token.lparen] ++ outl ++ fll ++ [] ++ [tok], .idle) = _
  rw [List.foldlM_cons,
    lexStep_space (show flushNum .idle = .ok [] from rfl)]
  show (rchars ++ [')']).foldlM lexStep
    (ts0 ++ [] ++ [Token.lparen] ++ outl ++ fll ++ [] ++ [tok] ++ [], .idle) = _
  rw [List.foldlM_append,
    hfoldr (ts0 ++ [] ++ [Token.lparen] ++ outl ++ fll ++ [] ++ [tok] ++ [])]
  show ([')'] : List Char).foldlM lexStep
    (ts0 ++ [] ++ [Token.lparen] ++ outl ++ fll ++ [] ++ [tok] ++ [] ++ outr, str) = _
  rw [foldlM_rparen_end hflr]
  simp [List.append_assoc]

lemma data_binary (l r : Expr) (mid : String) :
    ("(" ++ Expr.toString l ++ mid ++ Expr.toString r ++ ")").data =
      '(' :: ((Expr.toString l).data ++
        (mid.data ++ ((Expr.toString r).data ++ [')']))) := by
  simp [String.data_append , List.append_assoc]

lemma print_lexes : ∀ t : Expr, GoodExpr t →
    ∃ (out fl : List Token) (st : LexState),
      out ++ fl = printTokens t ∧ flushNum st = .ok fl ∧
      ∀ ts0 : List Token, (Expr.toString t).data.foldlM lexStep (ts0, .idle) =
        .ok (ts0 ++ out, st) := by
  intro t
  induction t with
  | Number q =>
    intro hG
    obtain ⟨st, hfl, hfold⟩ := magChars_lexes hG
    refine ⟨[], [numTokenOf q], st, by simp [printTokens], hfl, ?_⟩
    intro ts0
    have hdata : (Expr.toString (.Number q)).data = magChars q := by
      show (formatNumber q).data = _
      unfold formatNumber
      rw [if_neg (not_lt.mpr (Rat.num_nonneg.mpr (GoodQ_nonneg hG)))]
      rfl
    rw [hdata, hfold ts0]
    simp
  | Add l r ihl ihr =>
    intro hG
    obtain ⟨outl, fll, stl, heql, hfll, hfoldl⟩ := ihl hG.1
    obtain ⟨outr, flr, str, heqr, hflr, hfoldr⟩ := ihr hG.2
    refine ⟨[Token.lparen] ++ outl ++ fll ++ [Token.plus] ++ outr ++ flr ++
      [Token.rparen], [], .idle, ?_, rfl, ?_⟩
    · simp only [printTokens, ← heql, ← heqr]
      simp [List.append_assoc]
    · intro ts0
      have hdata : (Expr.toString (.Add l r)).data =
          '(' :: ((Expr.toString l).data ++
            (' ' :: '+' :: ' ' :: ((Expr.toString r).data ++ [')']))) := by
        show ("(" ++ Expr.toString l ++ " + " ++ Expr.toString r ++ ")").data = _
        have := data_binary l r (" + ")
        simpa using this
      rw [hdata]
      exact print_lexes_binary hfoldl hfll hfoldr hflr '+' Token.plus
        (fun A => rfl) ts0
  | Sub l r ihl ihr =>
    intro hG
    obtain ⟨outl, fll, stl, heql, hfll, hfoldl⟩ := ihl hG.1
    obtain ⟨outr, flr, str, heqr, hflr, hfoldr⟩ := ihr hG.2
    refine ⟨[Token.lparen] ++ outl ++ fll ++ [Token.minus] ++ outr ++ flr ++
      [Token.rparen], [], .idle, ?_, rfl, ?_⟩
    · simp only [printTokens, ← heql, ← heqr]
      simp [List.append_assoc]
    · intro ts0
      have hdata : (Expr.toString (.Sub l r)).data =
          '(' :: ((Expr.toString l).data ++
            (' ' :: '-' :: ' ' :: ((Expr.toString r).data ++ [')']))) := by
        show ("(" ++ Expr.toString l ++ " - " ++ Expr.toString r ++ ")").data = _
        have := data_binary l r (" - ")
        simpa using this
      rw [hdata]
      exact print_lexes_binary hfoldl hfll hfoldr hflr '-' Token.minus
        (fun A => rfl) ts0
  | Mul l r ihl ihr =>
    intro hG
    obtain ⟨outl, fll, stl, heql, hfll, hfoldl⟩ := ihl hG.1
    obtain ⟨outr, flr, str, heqr, hflr, hfoldr⟩ := ihr hG.2
    refine ⟨[Token.lparen] ++ outl ++ fll ++ [Token.star] ++ outr ++ flr ++
      [Token.rparen], [], .idle, ?_, rfl, ?_⟩
    · simp only [printTokens, ← heql, ← heqr]
      simp [List.append_assoc]
    · intro ts0
      have hdata : (Expr.toString (.Mul l r)).data =
          '(' :: ((Expr.toString l).data ++
            (' ' :: '*' :: ' ' :: ((Expr.toString r).data ++ [')']))) := by
        show ("(" ++ Expr.toString l ++ " * " ++ Expr.toString r ++ ")").data = _
        have := data_binary l r (" * ")
        simpa using this
      rw [hdata]
      exact print_lexes_binary hfoldl hfll hfoldr hflr '*' Token.star
        (fun A => rfl) ts0
  | Div l r ihl ihr =>
    intro hG
    obtain ⟨outl, fll, stl, heql, hfll, hfoldl⟩ := ihl hG.1
    obtain ⟨outr, flr, str, heqr, hflr, hfoldr⟩ := ihr hG.2
    refine ⟨[Token.lparen] ++ outl ++ fll ++ [Token.slash] ++ outr ++ flr ++
      [Token.rparen], [], .idle, ?_, rfl, ?_⟩
    · simp only [printTokens, ← heql, ← heqr]
      simp [List.append_assoc]
    · intro ts0
      have hdata : (Expr.toString (.Div l r)).data =
          '(' :: ((Expr.toString l).data ++
            (' ' :: '/' :: ' ' :: ((Expr.toString r).data ++ [')']))) := by
        show ("(" ++ Expr.toString l ++ " / " ++ Expr.toString r ++ ")").data = _
        have := data_binary l r (" / ")
        simpa using this
      rw [hdata]
      exact print_lexes_binary hfoldl hfll hfoldr hflr '/' Token.slash
        (fun A => rfl) ts0
  | Neg e ih =>
    intro hG
    obtain ⟨oute, fle, ste, heqe, hfle, hfolde⟩ := ih hG
    refine ⟨Token.minus :: oute, fle, ste, by simp [printTokens, ← heqe], hfle, ?_⟩
    intro ts0
    have hdata : (Expr.toString (.Neg e)).data = '-' :: (Expr.toString e).data := by
      show ("-" ++ Expr.toString e).data = _
      simp [String.data_append]
    rw [hdata]
    have h1 : ('-' :: (Expr.toString e).data).foldlM lexStep (ts0, .idle) =
        (Expr.toString e).data.foldlM lexStep (ts0 ++ [] ++ [Token.minus], .idle) :=
      rfl
    rw [h1, hfolde (ts0 ++ [] ++ [Token.minus])]
    simp [List.append_assoc]

lemma lex_print {t : Expr} (hG : GoodExpr t) :
    lex (Expr.toString t).data = .ok (printTokens t) := by
  obtain ⟨out, fl, st, heq, hfl, hfold⟩ := print_lexes t hG
  unfold lex
  rw [hfold []]
  show (match flushNum st with
    | .error e => (.error e : Except ComputeError (List Token))
    | .ok flushed => .ok ([] ++ out ++ flushed)) = _
  rw [hfl]
  simp [heq]

lemma unaryFrag_mono {m m' : ℕ} {ts : List Token} {a : Expr}
    (h : UnaryFrag m ts a) (hm : m ≤ m') : UnaryFrag m' ts a :=
  fun fuel rest hf => h fuel rest (by omega)

lemma paren_unaryFrag {m : ℕ} {inner : List Token} {a : Expr}
    (h : ∀ (fuel : ℕ) (rest : List Token), m ≤ fuel →
      parseL fuel .add (inner ++ (Token.rparen :: rest)) =
        some (.ok (a, Token.rparen :: rest))) :
    UnaryFrag (m + 3) (Token.lparen :: inner ++ [Token.rparen]) a := by
  intro fuel rest hf
  obtain ⟨F, rfl⟩ : ∃ F, fuel = F + 3 := ⟨fuel - 3, by omega⟩
  have e1 : (Token.lparen :: inner ++ [Token.rparen]) ++ rest =
      Token.lparen :: (inner ++ (Token.rparen :: rest)) := by simp
  rw [e1, unary_notminus (by simp)]
  exact prim_paren (h (F + 1) rest (by omega))

lemma addPair {ml mr : ℕ} {ptl ptr : List Token} {l r : Expr}
    (hl : UnaryFrag ml ptl l) (hr : UnaryFrag mr ptr r) :
    ∀ (fuel : ℕ) (rest : List Token), ml + mr + 8 ≤ fuel →
      parseL fuel .add ((ptl ++ (Token.plus :: ptr)) ++ (Token.rparen :: rest)) =
        some (.ok (.Add l r, Token.rparen :: rest)) := by
  intro fuel rest hf
  obtain ⟨F, rfl⟩ : ∃ F, fuel = F + 3 := ⟨fuel - 3, by omega⟩
  have e1 : (ptl ++ (Token.plus :: ptr)) ++ (Token.rparen :: rest) =
      ptl ++ (Token.plus :: (ptr ++ (Token.rparen :: rest))) := by simp
  rw [e1,
    add_enter (unaryFrag_mulFrag hl (F + 2) _ (by omega) (by simp) (by simp)),
    addLoop_plus (unaryFrag_mulFrag hr (F + 1) _ (by omega) (by simp) (by simp))]
  exact addLoop_stop (by simp) (by simp)

lemma subPair {ml mr : ℕ} {ptl ptr : List Token} {l r : Expr}
    (hl : UnaryFrag ml ptl l) (hr : UnaryFrag mr ptr r) :
    ∀ (fuel : ℕ) (rest : List Token), ml + mr + 8 ≤ fuel →
      parseL fuel .add ((ptl ++ (Token.minus :: ptr)) ++ (Token.rparen :: rest)) =
        some (.ok (.Sub l r, Token.rparen :: rest)) := by
  intro fuel rest hf
  obtain ⟨F, rfl⟩ : ∃ F, fuel = F + 3 := ⟨fuel - 3, by omega⟩
  have e1 : (ptl ++ (Token.minus :: ptr)) ++ (Token.rparen :: rest) =
      ptl ++ (Token.minus :: (ptr ++ (Token.rparen :: rest))) := by simp
  rw [e1,
    add_enter (unaryFrag_mulFrag hl (F + 2) _ (by omega) (by simp) (by simp)),
    addLoop_minus (unaryFrag_mulFrag hr (F + 1) _ (by omega) (by simp) (by simp))]
  exact addLoop_stop (by simp) (by simp)

lemma mulPair {ml mr : ℕ} {ptl ptr : List Token} {l r : Expr}
    (hl : UnaryFrag ml ptl l) (hr : UnaryFrag mr ptr r) :
    ∀ (fuel : ℕ) (rest : List Token), ml + mr + 8 ≤ fuel →
      parseL fuel .add ((ptl ++ (Token.star :: ptr)) ++ (Token.rparen :: rest)) =
        some (.ok (.Mul l r, Token.rparen :: rest)) := by
  intro fuel rest hf
  obtain ⟨F, rfl⟩ : ∃ F, fuel = F + 4 := ⟨fuel - 4, by omega⟩
  have e1 : (ptl ++ (Token.star :: ptr)) ++ (Token.rparen :: rest) =
      ptl ++ (Token.star :: (ptr ++ (Token.rparen :: rest))) := by simp
  have hmul : parseL (F + 3) .mul
      (ptl ++ (Token.star :: (ptr ++ (Token.rparen :: rest)))) =
      some (.ok (.Mul l r, Token.rparen :: rest)) := by
    rw [mul_enter (hl (F + 2) _ (by omega)),
      mulLoop_star (hr (F + 1) _ (by omega))]
    exact mulLoop_stop (by simp) (by simp)
  rw [e1, add_enter hmul]
  exact addLoop_stop (by simp) (by simp)

lemma divPair {ml mr : ℕ} {ptl ptr : List Token} {l r : Expr}
    (hl : UnaryFrag ml ptl l) (hr : UnaryFrag mr ptr r) :
    ∀ (fuel : ℕ) (rest : List Token), ml + mr + 8 ≤ fuel →
      parseL fuel .add ((ptl ++ (Token.slash :: ptr)) ++ (Token.rparen :: rest)) =
        some (.ok (.Div l r, Token.rparen :: rest)) := by
  intro fuel rest hf
  obtain ⟨F, rfl⟩ : ∃ F, fuel = F + 4 := ⟨fuel - 4, by omega⟩
  have e1 : (ptl ++ (Token.slash :: ptr)) ++ (Token.rparen :: rest) =
      ptl ++ (Token.slash :: (ptr ++ (Token.rparen :: rest))) := by simp
  have hmul : parseL (F + 3) .mul
      (ptl ++ (Token.slash :: (ptr ++ (Token.rparen :: rest)))) =
      some (.ok (.Div l r, Token.rparen :: rest)) := by
    rw [mul_enter (hl (F + 2) _ (by omega)),
      mulLoop_slash (hr (F + 1) _ (by omega))]
    exact mulLoop_stop (by simp) (by simp)
  rw [e1, add_enter hmul]
  exact addLoop_stop (by simp) (by simp)

lemma numTokenOf_shape (q : ℚ) : ∃ i f k, numTokenOf q = .num i f k := by
  unfold numTokenOf
  split
  · exact ⟨_, _, _, rfl⟩
  · cases findK q.den with
    | none => exact ⟨0, 0, 0, rfl⟩
    | some k => exact ⟨_, _, _, rfl⟩

lemma printTokens_unaryFrag : ∀ t : Expr, GoodExpr t →
    UnaryFrag (needU t) (printTokens t) t := by
  intro t
  induction t with
  | Number q =>
    intro hG
    obtain ⟨i, f, k, hik⟩ := numTokenOf_shape q
    have hval : numValue i f k = q := by
      have h2 := tokenValue_numTokenOf hG
      rw [hik] at h2
      simpa [tokenValue] using h2
    show UnaryFrag 2 [numTokenOf q] (.Number q)
    rw [hik, ← hval]
    exact num_unaryFrag i f k
  | Add l r ihl ihr =>
    intro hG
    have h := unaryFrag_mono (paren_unaryFrag (addPair (ihl hG.1) (ihr hG.2)))
      (show needU l + needU r + 8 + 3 ≤ needU l + needU r + 12 by omega)
    have e1 : Token.lparen :: (printTokens l ++ (Token.plus :: printTokens r)) ++
        [Token.rparen] = printTokens (.Add l r) := by
      simp [printTokens]
    exact e1 ▸ h
  | Sub l r ihl ihr =>
    intro hG
    have h := unaryFrag_mono (paren_unaryFrag (subPair (ihl hG.1) (ihr hG.2)))
      (show needU l + needU r + 8 + 3 ≤ needU l + needU r + 12 by omega)
    have e1 : Token.lparen :: (printTokens l ++ (Token.minus :: printTokens r)) ++
        [Token.rparen] = printTokens (.Sub l r) := by
      simp [printTokens]
    exact e1 ▸ h
  | Mul l r ihl ihr =>
    intro hG
    have h := unaryFrag_mono (paren_unaryFrag (mulPair (ihl hG.1) (ihr hG.2)))
      (show needU l + needU r + 8 + 3 ≤ needU l + needU r + 12 by omega)
    have e1 : Token.lparen :: (printTokens l ++ (Token.star :: printTokens r)) ++
        [Token.rparen] = printTokens (.Mul l r) := by
      simp [printTokens]
    exact e1 ▸ h
  | Div l r ihl ihr =>
    intro hG
    have h := unaryFrag_mono (paren_unaryFrag (divPair (ihl hG.1) (ihr hG.2)))
      (show needU l + needU r + 8 + 3 ≤ needU l + needU r + 12 by omega)
    have e1 : Token.lparen :: (printTokens l ++ (Token.slash :: printTokens r)) ++
        [Token.rparen] = printTokens (.Div l r) := by
      simp [printTokens]
    exact e1 ▸ h
  | Neg e ih =>
    intro hG
    exact neg_unaryFrag (ih hG)

lemma goodQ_numValue (i f k : ℕ) : GoodQ (numValue i f k) := by
  refine ⟨i * 10 ^ k + f, k, ?_⟩
  unfold numValue
  have h10 : ((10 : ℚ) ^ k) ≠ 0 := by positivity
  field_simp

lemma parseL_good : ∀ (fuel : ℕ) (lvl : PLvl) (ts : List Token) (a : Expr)
    (rest : List Token), lvlGood lvl →
    parseL fuel lvl ts = some (.ok (a, rest)) → GoodExpr a := by
  intro fuel
  induction fuel with
  | zero =>
    intro lvl ts a rest _ h
    exact Option.noConfusion h
  | succ n ih =>
    intro lvl ts a rest hlv h
    cases lvl with
    | add =>
      simp only [parseL] at h
      cases hm : parseL n PLvl.mul ts with
      | none =>
        rw [hm] at h
        exact Option.noConfusion h
      | some x =>
        cases x with
        | error e =>
          rw [hm] at h
          exact Except.noConfusion (Option.some.inj h)
        | ok p =>
          obtain ⟨l, ts1⟩ := p
          rw [hm] at h
          exact ih _ _ _ _ (show lvlGood (PLvl.addLoop l) from
            ih PLvl.mul _ _ _ trivial hm) h
    | mul =>
      simp only [parseL] at h
      cases hm : parseL n PLvl.unary ts with
      | none =>
        rw [hm] at h
        exact Option.noConfusion h
      | some x =>
        cases x with
        | error e =>
          rw [hm] at h
          exact Except.noConfusion (Option.some.inj h)
        | ok p =>
          obtain ⟨l, ts1⟩ := p
          rw [hm] at h
          exact ih _ _ _ _ (show lvlGood (PLvl.mulLoop l) from
            ih PLvl.unary _ _ _ trivial hm) h
    | addLoop l =>
      cases ts with
      | nil =>
        simp only [parseL] at h
        exact (Prod.mk.inj (Except.ok.inj (Option.some.inj h))).1 ▸ hlv
      | cons t ts2 =>
        cases t with
        | plus =>
          simp only [parseL] at h
          cases hm : parseL n PLvl.mul ts2 with
          | none =>
            rw [hm] at h
            exact Option.noConfusion h
          | some x =>
            cases x with
            | error e =>
              rw [hm] at h
              exact Except.noConfusion (Option.some.inj h)
            | ok p =>
              obtain ⟨r, ts3⟩ := p
              rw [hm] at h
              exact ih _ _ _ _ (show lvlGood (PLvl.addLoop (.Add l r)) from
                ⟨hlv, ih PLvl.mul _ _ _ trivial hm⟩) h
        | minus =>
          simp only [parseL] at h
          cases hm : parseL n PLvl.mul ts2 with
          | none =>
            rw [hm] at h
            exact Option.noConfusion h
          | some x =>
            cases x with
            | error e =>
              rw [hm] at h
              exact Except.noConfusion (Option.some.inj h)
            | ok p =>
              obtain ⟨r, ts3⟩ := p
              rw [hm] at h
              exact ih _ _ _ _ (show lvlGood (PLvl.addLoop (.Sub l r)) from
                ⟨hlv, ih PLvl.mul _ _ _ trivial hm⟩) h
        | num i f k =>
          simp only [parseL] at h
          exact (Prod.mk.inj (Except.ok.inj (Option.some.inj h))).1 ▸ hlv
        | star =>
          simp only [parseL] at h
          exact (Prod.mk.inj (Except.ok.inj (Option.some.inj h))).1 ▸ hlv
        | slash =>
          simp only [parseL] at h
          exact (Prod.mk.inj (Except.ok.inj (Option.some.inj h))).1 ▸ hlv
        | lparen =>
          simp only [parseL] at h
          exact (Prod.mk.inj (Except.ok.inj (Option.some.inj h))).1 ▸ hlv
        | rparen =>
          simp only [parseL] at h
          exact (Prod.mk.inj (Except.ok.inj (Option.some.inj h))).1 ▸ hlv
    | mulLoop l =>
      cases ts with
      | nil =>
        simp only [parseL] at h
        exact (Prod.mk.inj (Except.ok.inj (Option.some.inj h))).1 ▸ hlv
      | cons t ts2 =>
        cases t with
        | star =>
          simp only [parseL] at h
          cases hm : parseL n PLvl.unary ts2 with
          | none =>
            rw [hm] at h
            exact Option.noConfusion h
          | some x =>
            cases x with
            | error e =>
              rw [hm] at h
              exact Except.noConfusion (Option.some.inj h)
            | ok p =>
              obtain ⟨r, ts3⟩ := p
              rw [hm] at h
              exact ih _ _ _ _ (show lvlGood (PLvl.mulLoop (.Mul l r)) from
                ⟨hlv, ih PLvl.unary _ _ _ trivial hm⟩) h
        | slash =>
          simp only [parseL] at h
          cases hm : parseL n PLvl.unary ts2 with
          | none =>
            rw [hm] at h
            exact Option.noConfusion h
          | some x =>
            cases x with
            | error e =>
              rw [hm] at h
              exact Except.noConfusion (Option.some.inj h)
            | ok p =>
              obtain ⟨r, ts3⟩ := p
              rw [hm] at h
              exact ih _ _ _ _ (show lvlGood (PLvl.mulLoop (.Div l r)) from
                ⟨hlv, ih PLvl.unary _ _ _ trivial hm⟩) h
        | num i f k =>
          simp only [parseL] at h
          exact (Prod.mk.inj (Except.ok.inj (Option.some.inj h))).1 ▸ hlv
        | plus =>
          simp only [parseL] at h
          exact (Prod.mk.inj (Except.ok.inj (Option.some.inj h))).1 ▸ hlv
        | minus =>
          simp only [parseL] at h
          exact (Prod.mk.inj (Except.ok.inj (Option.some.inj h))).1 ▸ hlv
        | lparen =>
          simp only [parseL] at h
          exact (Prod.mk.inj (Except.ok.inj (Option.some.inj h))).1 ▸ hlv
        | rparen =>
          simp only [parseL] at h
          exact (Prod.mk.inj (Except.ok.inj (Option.some.inj h))).1 ▸ hlv
    | unary =>
      cases ts with
      | nil =>
        simp only [parseL] at h
        exact ih PLvl.prim _ _ _ trivial h
      | cons t ts2 =>
        cases t with
        | minus =>
          simp only [parseL] at h
          cases hm : parseL n PLvl.unary ts2 with
          | none =>
            rw [hm] at h
            exact Option.noConfusion h
          | some x =>
            cases x with
            | error e =>
              rw [hm] at h
              exact Except.noConfusion (Option.some.inj h)
            | ok p =>
              obtain ⟨e1, ts3⟩ := p
              rw [hm] at h
              have hge : GoodExpr e1 := ih PLvl.unary _ _ _ trivial hm
              exact (Prod.mk.inj (Except.ok.inj (Option.some.inj h))).1 ▸
                (show GoodExpr (Expr.Neg e1) from hge)
        | num i f k =>
          simp only [parseL] at h
          exact ih PLvl.prim _ _ _ trivial h
        | plus =>
          simp only [parseL] at h
          exact ih PLvl.prim _ _ _ trivial h
        | star =>
          simp only [parseL] at h
          exact ih PLvl.prim _ _ _ trivial h
        | slash =>
          simp only [parseL] at h
          exact ih PLvl.prim _ _ _ trivial h
        | lparen =>
          simp only [parseL] at h
          exact ih PLvl.prim _ _ _ trivial h
        | rparen =>
          simp only [parseL] at h
          exact ih PLvl.prim _ _ _ trivial h
    | prim =>
      cases ts with
      | nil =>
        simp only [parseL] at h
        exact Except.noConfusion (Option.some.inj h)
      | cons t ts2 =>
        cases t with
        | num i f k =>
          simp only [parseL, parseFloat] at h
          exact (Prod.mk.inj (Except.ok.inj (Option.some.inj h))).1 ▸
            goodQ_numValue i f k
        | lparen =>
          simp only [parseL] at h
          cases hm : parseL n PLvl.add ts2 with
          | none =>
            rw [hm] at h
            exact Option.noConfusion h
          | some x =>
            cases x with
            | error e =>
              rw [hm] at h
              exact Except.noConfusion (Option.some.inj h)
            | ok p =>
              obtain ⟨e1, ts3⟩ := p
              rw [hm] at h
              cases ts3 with
              | nil => exact Except.noConfusion (Option.some.inj h)
              | cons t3 ts4 =>
                cases t3 with
                | rparen =>
                  exact (Prod.mk.inj (Except.ok.inj (Option.some.inj h))).1 ▸
                    (show GoodExpr e1 from ih PLvl.add _ _ _ trivial hm)
                | num i f k => exact Except.noConfusion (Option.some.inj h)
                | plus => exact Except.noConfusion (Option.some.inj h)
                | minus => exact Except.noConfusion (Option.some.inj h)
                | star => exact Except.noConfusion (Option.some.inj h)
                | slash => exact Except.noConfusion (Option.some.inj h)
                | lparen => exact Except.noConfusion (Option.some.inj h)
        | plus =>
          simp only [parseL] at h
          exact Except.noConfusion (Option.some.inj h)
        | minus =>
          simp only [parseL] at h
          exact Except.noConfusion (Option.some.inj h)
        | star =>
          simp only [parseL] at h
          exact Except.noConfusion (Option.some.inj h)
        | slash =>
          simp only [parseL] at h
          exact Except.noConfusion (Option.some.inj h)
        | rparen =>
          simp only [parseL] at h
          exact Except.noConfusion (Option.some.inj h)

lemma needU_le : ∀ t : Expr, needU t ≤ 8 * (printTokens t).length := by
  intro t
  induction t with
  | Number q => simp [needU, printTokens]
  | Add l r ihl ihr =>
    simp only [needU, printTokens, List.length_cons, List.length_append] at *
    omega
  | Sub l r ihl ihr =>
    simp only [needU, printTokens, List.length_cons, List.length_append] at *
    omega
  | Mul l r ihl ihr =>
    simp only [needU, printTokens, List.length_cons, List.length_append] at *
    omega
  | Div l r ihl ihr =>
    simp only [needU, printTokens, List.length_cons, List.length_append] at *
    omega
  | Neg e ih =>
    simp only [needU, printTokens, List.length_cons] at *
    omega

lemma parse_expression_good {x : Expression} {ast : Expr}
    (h : parse_expression x = .ok ast) : GoodExpr ast := by
  unfold parse_expression at h
  cases hl : lex x.text.data with
  | error e =>
    rw [hl] at h
    exact Except.noConfusion h
  | ok ts =>
    rw [hl] at h
    have h2 : (match parseL (parseFuel ts) PLvl.add ts with
      | none => (Except.error ComputeError.InvalidStructure : Except ComputeError Expr)
      | some (.error er) => .error er
      | some (.ok (ast, rest)) =>
        if rest = [] then .ok ast else .error .ParseError) = .ok ast := h
    cases hp : parseL (parseFuel ts) PLvl.add ts with
    | none =>
      rw [hp] at h2
      exact Except.noConfusion h2
    | some r =>
      cases r with
      | error e =>
        rw [hp] at h2
        exact Except.noConfusion h2
      | ok p =>
        obtain ⟨ast1, rest⟩ := p
        rw [hp] at h2
        have h3 : (if rest = [] then (Except.ok ast1 : Except ComputeError Expr)
            else .error .ParseError) = .ok ast := h2
        by_cases hrest : rest = []
        · rw [if_pos hrest] at h3
          exact (Except.ok.inj h3) ▸ parseL_good _ PLvl.add _ _ _ trivial hp
        · rw [if_neg hrest] at h3
          exact Except.noConfusion h3

lemma parse_print {t : Expr} (hG : GoodExpr t) :
    parse_expression (Expression.fromStr (Expr.toString t)) = .ok t := by
  refine parse_expression_of_addFrag ?_ (unaryFrag_addFrag (printTokens_unaryFrag t hG)) ?_
  · exact lex_print hG
  · have := needU_le t
    unfold parseFuel
    omega

lemma ws_char_cases {c : Char} (h : isWsChar c = true) :
    c = ' ' ∨ c = '\t' ∨ c = '\n' ∨ c = '\r' := by
  unfold isWsChar at h
  rcases Bool.or_eq_true_iff.mp h with h1 | h1
  · rcases Bool.or_eq_true_iff.mp h1 with h2 | h2
    · rcases Bool.or_eq_true_iff.mp h2 with h3 | h3
      · exact Or.inl (by exact_mod_cast eq_of_beq h3)
      · exact Or.inr (Or.inl (by exact_mod_cast eq_of_beq h3))
    · exact Or.inr (Or.inr (Or.inl (by exact_mod_cast eq_of_beq h2)))
  · exact Or.inr (Or.inr (Or.inr (by exact_mod_cast eq_of_beq h1)))

lemma foldlM_all_ws : ∀ (cs : List Char), (∀ c ∈ cs, isWsChar c = true) →
    ∀ ts0 : List Token, cs.foldlM lexStep (ts0, .idle) = .ok (ts0, .idle) := by
  intro cs
  induction cs with
  | nil => intro _ ts0; rfl
  | cons c cs ih =>
    intro hws ts0
    have hstep : lexStep (ts0, .idle) c = .ok (ts0 ++ [], .idle) := by
      rcases ws_char_cases (hws c (by simp)) with h | h | h | h <;> rw [h] <;> rfl
    rw [List.foldlM_cons, hstep]
    show cs.foldlM lexStep (ts0 ++ [], .idle) = _
    rw [ih (fun x hx => hws x (by simp [hx])) (ts0 ++ [])]
    simp

lemma printTokens_ne_nil (t : Expr) : printTokens t ≠ [] := by
  cases t <;> simp [printTokens]

/-- C9 (amended): pretty-print round trip for inputs whose literals all
stay finite in f64 (no overflow to infinity) - exactly the inputs the
exact-rational value model represents: whenever such an input parses to an
AST, re-parsing the pretty-printed canonical form yields the very same AST,
and evaluating the regenerated text yields exactly the value or error that
evaluating the original AST yields.  For an overflowing literal the claim
fails in the program: see the counterexample below. -/
theorem claim_C9 (x : Expression) (ast : Expr)
    (h : parse_expression x = .ok ast) :
    parse_expression (Expression.fromStr (Expr.toString ast)) = .ok ast ∧
    evaluate (Expr.toString ast) = eval_expr ast := by
  have hG := parse_expression_good h
  have hround := parse_print hG
  refine ⟨hround, ?_⟩
  have hne : trimmedEmpty (Expr.toString ast) = false := by
    cases htr : trimmedEmpty (Expr.toString ast) with
    | false => rfl
    | true =>
      exfalso
      have hws : ∀ c ∈ (Expr.toString ast).data, isWsChar c = true := by
        unfold trimmedEmpty at htr
        simpa [List.all_eq_true] using htr
      have hlex : lex (Expr.toString ast).data = .ok [] := by
        unfold lex
        rw [foldlM_all_ws _ hws []]
        rfl
      have h2 := lex_print hG
      rw [hlex] at h2
      exact printTokens_ne_nil ast (Except.ok.inj h2).symm
  unfold evaluate
  rw [hne]
  show evaluate_expression (Expression.fromStr (Expr.toString ast)) = _
  unfold evaluate_expression
  rw [hround]

set_option maxRecDepth 10000 in
/-- C9 (counterexample to the claim as stated): the 310-digit literal
bigLit is syntactically valid and parses to a single Number whose value
10^309 exceeds the largest finite f64, so the program's conversion yields
Number(f64 positive infinity) and the program's pretty-printer emits the
text inf, which the grammar cannot re-parse: evaluating the regenerated
text is a ParseError, although evaluating the original input yields a value
(positive infinity in the program, the exact rational here) - neither the
same numeric value nor the same error kind.  So the round trip fails for a
syntactically valid input. -/
theorem claim_C9_counterexample :
    parse_expression (Expression.fromStr bigLit) =
      .ok (.Number (numValue (10 ^ 309) 0 0)) ∧
    evaluate bigLit = .ok (numValue (10 ^ 309) 0 0) ∧
    f64OfDecimal (10 ^ 309) 0 0 = .pinf ∧
    formatNumberFp (f64OfDecimal (10 ^ 309) 0 0) = ("inf") ∧
    evaluate (formatNumberFp (f64OfDecimal (10 ^ 309) 0 0)) =
      .error .ParseError := by
  have hinf : f64OfDecimal (10 ^ 309) 0 0 = .pinf := by
    unfold f64OfDecimal
    rw [if_pos]
    unfold numValue
    push_cast
    norm_num
  refine ⟨rfl, rfl, hinf, ?_, ?_⟩
  · rw [hinf]
    rfl
  · rw [hinf]
    rfl

/-- C9 witness: round trip instantiated at the concrete parse of 5 - 3. -/
theorem claim_C9_witness :
    parse_expression (Expression.fromStr (Expr.toString
      (.Sub (.Number (numValue 5 0 0)) (.Number (numValue 3 0 0))))) =
      .ok (.Sub (.Number (numValue 5 0 0)) (.Number (numValue 3 0 0))) ∧
    evaluate (Expr.toString
      (.Sub (.Number (numValue 5 0 0)) (.Number (numValue 3 0 0)))) =
      eval_expr (.Sub (.Number (numValue 5 0 0)) (.Number (numValue 3 0 0))) :=
  claim_C9 (Expression.fromStr ("5 - 3"))
    (.Sub (.Number (numValue 5 0 0)) (.Number (numValue 3 0 0))) rfl
